import Mathlib

/-!
Shallow embedding of `pyfit/engine.py` (a minimal reverse-mode autodiff
engine over scalar values) and verification of its specification.

Modelling choices:
* Python `Scalar` objects live in an arena: a `GState` is the list of all
  nodes created so far, and a node is identified by its index (its
  identity).  A node is only ever created as the result of an operation
  over already-existing nodes, so in any state reachable through the API
  every node's operand indices are strictly smaller than its own index
  (the well-formedness predicate `WF`).
* Python float values are modelled by `ℚ`.  Python raises
  `ZeroDivisionError` on float division by zero, which we model with
  `Except Err`; `AttributeError` (attribute access on a non-`Scalar`)
  and `TypeError` are the other raised conditions reachable from the
  operators.
* The `_backward` closure attached by each operator reads only the
  operation tag and the operand identities, so it is modelled by the
  dispatch function `stepB` on the stored `Op` tag, exactly mirroring
  each closure body statement by statement (including sequential
  read-modify-write order, which matters when both operands are the
  same node).
* `Scalar.backward`'s `build_topo` recursion is modelled by the
  fuel-indexed `dfsF`; under `WF` the fuel `t + 1` is never exhausted
  because every recursive call descends to a strictly smaller index.
  Python iterates the operand set `_prev` in unspecified order; we fix
  the left-to-right operand order, which is one admissible order (all
  properties proved below hold for any order).
-/

set_option maxHeartbeats 1000000

namespace Micrograd

/-- Operation tag recorded on a node: which operation produced it and
from which operand nodes.  Mirrors `_op` together with `_prev` and the
information captured by the `_backward` closure in `engine.py`. -/
inductive Op : Type
  | leaf : Op
  | add (a b : Nat) : Op
  | sub (a b : Nat) : Op
  | mul (a b : Nat) : Op
  | div (a b : Nat) : Op
  | relu (a : Nat) : Op
deriving DecidableEq

/-- Operand identities of a node, in the order the `_backward` closures
touch them (`self` first, then `_other`). -/
def Op.children : Op → List Nat
  | Op.leaf => []
  | Op.add a b => [a, b]
  | Op.sub a b => [a, b]
  | Op.mul a b => [a, b]
  | Op.div a b => [a, b]
  | Op.relu a => [a]

/-- One `Scalar` object: `data`, `grad` (initialized to 0 at
construction) and the provenance record. -/
structure Node where
  data : ℚ
  grad : ℚ
  op : Op
deriving DecidableEq

def dummyNode : Node := ⟨0, 0, Op.leaf⟩

/-- The arena of all `Scalar` objects created so far. -/
structure GState where
  nodes : List Node
deriving DecidableEq

/-- Node lookup by identity (out-of-range indices yield the dummy leaf;
they never occur in API-reachable states). -/
def nodeAt : List Node → Nat → Node
  | [], _ => dummyNode
  | n :: _, 0 => n
  | _ :: ns, i + 1 => nodeAt ns i

def GState.size (g : GState) : Nat := g.nodes.length

def dataOf (g : GState) (i : Nat) : ℚ := (nodeAt g.nodes i).data

def gradOf (g : GState) (i : Nat) : ℚ := (nodeAt g.nodes i).grad

def opOf (g : GState) (i : Nat) : Op := (nodeAt g.nodes i).op

/-- The `_prev` operand list of node `i` (Python stores `set(children)`;
deduplication is irrelevant both to the traversal, which skips visited
nodes, and to the closures, which touch each captured variable
explicitly). -/
def prevOf (g : GState) (i : Nat) : List Nat := (opOf g i).children

/-- Point update of one node's `grad` field (`x.grad += ...` and
`self.grad = 1` are the only mutations in the source). -/
def updNodes : List Node → Nat → (ℚ → ℚ) → List Node
  | [], _, _ => []
  | n :: rest, 0, f => { n with grad := f n.grad } :: rest
  | n :: rest, j + 1, f => n :: updNodes rest j f

def updGrad (g : GState) (i : Nat) (f : ℚ → ℚ) : GState := ⟨updNodes g.nodes i f⟩

def GState.push (g : GState) (n : Node) : GState := ⟨g.nodes ++ [n]⟩

/-- `Scalar(q)`: a fresh leaf node with `data = q`, `grad = 0`, no
operands.  Returns the new state and the new node's identity. -/
def mkLeaf (g : GState) (q : ℚ) : GState × Nat :=
  (g.push ⟨q, 0, Op.leaf⟩, g.size)

/-- `Scalar.__add__` after operand coercion: a fresh node with
`data = self.data + other.data` and operands `(self, other)`. -/
def addS (g : GState) (a b : Nat) : GState × Nat :=
  (g.push ⟨dataOf g a + dataOf g b, 0, Op.add a b⟩, g.size)

/-- `Scalar.__sub__` after operand coercion. -/
def subS (g : GState) (a b : Nat) : GState × Nat :=
  (g.push ⟨dataOf g a - dataOf g b, 0, Op.sub a b⟩, g.size)

/-- `Scalar.__mul__` after operand coercion. -/
def mulS (g : GState) (a b : Nat) : GState × Nat :=
  (g.push ⟨dataOf g a * dataOf g b, 0, Op.mul a b⟩, g.size)

/-- Raised conditions reachable from the operators: Python raises
`ZeroDivisionError` on float division by zero, `AttributeError` on
`_other.data` when `_other` is neither lifted nor a `Scalar`, and
`TypeError` when a reflected operator ends up returning
`NotImplemented`. -/
inductive Err : Type
  | divisionByZero : Err
  | attributeError : Err
  | typeError : Err
deriving DecidableEq

/-- `Scalar.__truediv__` after operand coercion: `self.data /
_other.data` raises `ZeroDivisionError` when the divisor is zero,
otherwise builds the quotient node. -/
def divS (g : GState) (a b : Nat) : Except Err (GState × Nat) :=
  if dataOf g b = 0 then Except.error Err.divisionByZero
  else Except.ok (g.push ⟨dataOf g a / dataOf g b, 0, Op.div a b⟩, g.size)

/-- `Scalar.relu`: `0 if self.data < 0 else self.data`, single operand. -/
def reluS (g : GState) (a : Nat) : GState × Nat :=
  (g.push ⟨if dataOf g a < 0 then 0 else dataOf g a, 0, Op.relu a⟩, g.size)

/-- A Python value appearing as the `other` argument of an operator:
an existing `Scalar` (by identity), a raw float, a raw int, or some
non-numeric object. -/
inductive PyArg : Type
  | scalar (i : Nat) : PyArg
  | pfloat (q : ℚ) : PyArg
  | pint (n : ℤ) : PyArg
  | pstr : PyArg
deriving DecidableEq

/-- The coercion performed at every operator entry:
`self_type(other) if isinstance(other, float) else other`.  Only a raw
float is lifted to a fresh leaf node; every other value is passed
through unchanged. -/
def liftFloat (g : GState) (arg : PyArg) : GState × PyArg :=
  match arg with
  | PyArg.pfloat q => ((mkLeaf g q).1, PyArg.scalar (mkLeaf g q).2)
  | a => (g, a)

/-- `Scalar.__add__` including the coercion: after `liftFloat`, the body
reads `_other.data`, which raises `AttributeError` unless `_other` is a
`Scalar`. -/
def addPy (g : GState) (i : Nat) (other : PyArg) : Except Err (GState × Nat) :=
  match liftFloat g other with
  | (g1, PyArg.scalar j) => Except.ok (addS g1 i j)
  | _ => Except.error Err.attributeError

/-- `Scalar.__sub__` including the coercion. -/
def subPy (g : GState) (i : Nat) (other : PyArg) : Except Err (GState × Nat) :=
  match liftFloat g other with
  | (g1, PyArg.scalar j) => Except.ok (subS g1 i j)
  | _ => Except.error Err.attributeError

/-- `Scalar.__mul__` including the coercion. -/
def mulPy (g : GState) (i : Nat) (other : PyArg) : Except Err (GState × Nat) :=
  match liftFloat g other with
  | (g1, PyArg.scalar j) => Except.ok (mulS g1 i j)
  | _ => Except.error Err.attributeError

/-- `Scalar.__truediv__` including the coercion. -/
def divPy (g : GState) (i : Nat) (other : PyArg) : Except Err (GState × Nat) :=
  match liftFloat g other with
  | (g1, PyArg.scalar j) => divS g1 i j
  | _ => Except.error Err.attributeError

/-- `Scalar.__rsub__`: lift `other` when it is a float, then evaluate
`_other.__sub__(self)` — the lifted/left value becomes the minuend.  If
`_other` is not a `Scalar`, its `__sub__` returns `NotImplemented` and
the operator protocol raises `TypeError`. -/
def rsubPy (g : GState) (i : Nat) (other : PyArg) : Except Err (GState × Nat) :=
  match liftFloat g other with
  | (g1, PyArg.scalar j) => Except.ok (subS g1 j i)
  | _ => Except.error Err.typeError

/-- `Scalar.__rtruediv__`: lift `other` when it is a float, then
evaluate `_other.__truediv__(self)` — the lifted/left value becomes the
dividend. -/
def rdivPy (g : GState) (i : Nat) (other : PyArg) : Except Err (GState × Nat) :=
  match liftFloat g other with
  | (g1, PyArg.scalar j) => divS g1 j i
  | _ => Except.error Err.typeError

/-- The body of the `_backward` closure, dispatching on the recorded
operation tag.  Each branch mirrors the corresponding closure in
`engine.py` statement by statement, re-reading every field at its use
site (so aliasing between operands is treated exactly as in the
source).  Division inside the divide closure raises
`ZeroDivisionError` when the stored divisor's `data` is zero. -/
def stepOp (g : GState) (i : Nat) : Op → Except Err GState
  | Op.leaf => Except.ok g
  | Op.add a b =>
      let g1 := updGrad g a (fun x => x + gradOf g i)
      Except.ok (updGrad g1 b (fun x => x + gradOf g1 i))
  | Op.sub a b =>
      let g1 := updGrad g a (fun x => x + gradOf g i)
      Except.ok (updGrad g1 b (fun x => x - gradOf g1 i))
  | Op.mul a b =>
      let g1 := updGrad g a (fun x => x + gradOf g i * dataOf g b)
      Except.ok (updGrad g1 b (fun x => x + gradOf g1 i * dataOf g1 a))
  | Op.div a b =>
      if dataOf g b = 0 then Except.error Err.divisionByZero
      else
        let g1 := updGrad g a (fun x => x + gradOf g i / dataOf g b)
        Except.ok (updGrad g1 b
          (fun x => x + gradOf g1 i * (-dataOf g1 a / (dataOf g1 b * dataOf g1 b))))
  | Op.relu a =>
      Except.ok (updGrad g a
        (fun x => x + (if 0 < dataOf g i then 1 else 0) * gradOf g i))

/-- One invocation of `node._backward()` for node `i`. -/
def stepB (g : GState) (i : Nat) : Except Err GState := stepOp g i (opOf g i)

/-- The mutable state of `build_topo`: the `visited` set (kept as a
list of identities) and the `topo` output list. -/
structure DfsSt where
  visited : List Nat
  topo : List Nat
deriving DecidableEq

/-- `build_topo`, fuel-indexed: if the node is unvisited, mark it,
recurse into each operand, then append the node.  Under `WF` the fuel
is never exhausted (operand indices strictly decrease). -/
def dfsF (g : GState) : Nat → Nat → DfsSt → DfsSt
  | 0, _, st => st
  | fuel + 1, i, st =>
      if i ∈ st.visited then st
      else
        let st1 := List.foldl (fun s c => dfsF g fuel c s)
          ⟨i :: st.visited, st.topo⟩ (prevOf g i)
        ⟨st1.visited, st1.topo ++ [i]⟩

/-- The topological order produced by `build_topo(self)` starting from
empty `visited` and `topo`. -/
def dfs (g : GState) (t : Nat) : List Nat := (dfsF g (t + 1) t ⟨[], []⟩).topo

/-- `Scalar.backward`: build the topological order, seed
`self.grad = 1` by assignment, then run each node's `_backward` in
reverse topological order. -/
def backward (g : GState) (t : Nat) : Except Err GState :=
  let topo := dfs g t
  let g1 := updGrad g t (fun _ => 1)
  List.foldlM stepB g1 topo.reverse

/-- Well-formedness of an arena: every node's operands were created
before it.  This holds for every state reachable through the API,
because an operation records only already-existing nodes as operands. -/
def WF (g : GState) : Prop :=
  ∀ i, i < g.size → ∀ c ∈ prevOf g i, c < i

instance (g : GState) : Decidable (WF g) := by
  unfold WF; infer_instance

/-- Reachability from `i` through the operand relation (the nodes
`build_topo` can reach from the terminal). -/
inductive Reach (g : GState) : Nat → Nat → Prop
  | refl (i : Nat) : Reach g i i
  | tail {i j k : Nat} : Reach g i j → k ∈ prevOf g j → Reach g i k

/-- Index of the first occurrence of `x` in `l` (used to express the
relative order of backward-rule invocations). -/
def pos : List Nat → Nat → Nat
  | [], _ => 0
  | y :: ys, x => if y = x then 0 else pos ys x + 1

/-! ### Basic lemmas about the arena primitives -/

lemma nodeAt_append_lt (ns ms : List Node) (i : Nat) (h : i < ns.length) :
    nodeAt (ns ++ ms) i = nodeAt ns i := by
  induction ns generalizing i with
  | nil => simp at h
  | cons n rest ih =>
      cases i with
      | zero => rfl
      | succ j => exact ih j (by simpa using h)

lemma nodeAt_append_self (ns : List Node) (n : Node) :
    nodeAt (ns ++ [n]) ns.length = n := by
  induction ns with
  | nil => rfl
  | cons m rest ih => simpa using ih

lemma nodeAt_ge (ns : List Node) (i : Nat) (h : ns.length ≤ i) :
    nodeAt ns i = dummyNode := by
  induction ns generalizing i with
  | nil => cases i <;> rfl
  | cons n rest ih =>
      cases i with
      | zero => simp at h
      | succ j => exact ih j (by simpa using h)

lemma updNodes_length (ns : List Node) (i : Nat) (f : ℚ → ℚ) :
    (updNodes ns i f).length = ns.length := by
  induction ns generalizing i with
  | nil => rfl
  | cons n rest ih => cases i <;> simp [updNodes, ih]

lemma nodeAt_updNodes_ne (ns : List Node) (i j : Nat) (f : ℚ → ℚ) (h : j ≠ i) :
    nodeAt (updNodes ns i f) j = nodeAt ns j := by
  induction ns generalizing i j with
  | nil => rfl
  | cons n rest ih =>
      cases i with
      | zero => cases j with
          | zero => exact absurd rfl h
          | succ k => rfl
      | succ i0 => cases j with
          | zero => rfl
          | succ k => exact ih i0 k (fun hk => h (by omega))

lemma nodeAt_updNodes_self (ns : List Node) (i : Nat) (f : ℚ → ℚ) (h : i < ns.length) :
    nodeAt (updNodes ns i f) i =
      { nodeAt ns i with grad := f (nodeAt ns i).grad } := by
  induction ns generalizing i with
  | nil => simp at h
  | cons n rest ih =>
      cases i with
      | zero => rfl
      | succ j => exact ih j (by simpa using h)

lemma size_updGrad (g : GState) (i : Nat) (f : ℚ → ℚ) :
    (updGrad g i f).size = g.size := by
  simp [GState.size, updGrad, updNodes_length]

lemma dataOf_updGrad (g : GState) (i j : Nat) (f : ℚ → ℚ) :
    dataOf (updGrad g i f) j = dataOf g j := by
  rcases eq_or_ne j i with h | h
  · subst h
    rcases lt_or_ge j g.nodes.length with hl | hl
    · simp [dataOf, updGrad, nodeAt_updNodes_self _ _ _ hl]
    · simp [dataOf, updGrad, nodeAt_ge _ _ hl,
        nodeAt_ge _ _ (le_trans ((updNodes_length g.nodes j f).le.trans hl) le_rfl)]
  · simp [dataOf, updGrad, nodeAt_updNodes_ne _ _ _ _ h]

lemma opOf_updGrad (g : GState) (i j : Nat) (f : ℚ → ℚ) :
    opOf (updGrad g i f) j = opOf g j := by
  rcases eq_or_ne j i with h | h
  · subst h
    rcases lt_or_ge j g.nodes.length with hl | hl
    · simp [opOf, updGrad, nodeAt_updNodes_self _ _ _ hl]
    · simp [opOf, updGrad, nodeAt_ge _ _ hl,
        nodeAt_ge _ _ (le_trans ((updNodes_length g.nodes j f).le.trans hl) le_rfl)]
  · simp [opOf, updGrad, nodeAt_updNodes_ne _ _ _ _ h]

lemma prevOf_updGrad (g : GState) (i j : Nat) (f : ℚ → ℚ) :
    prevOf (updGrad g i f) j = prevOf g j := by
  simp [prevOf, opOf_updGrad]

lemma gradOf_updGrad_ne (g : GState) (i j : Nat) (f : ℚ → ℚ) (h : j ≠ i) :
    gradOf (updGrad g i f) j = gradOf g j := by
  simp [gradOf, updGrad, nodeAt_updNodes_ne _ _ _ _ h]

lemma gradOf_updGrad_self (g : GState) (i : Nat) (f : ℚ → ℚ) (h : i < g.size) :
    gradOf (updGrad g i f) i = f (gradOf g i) := by
  simp [gradOf, updGrad, nodeAt_updNodes_self _ _ _ h]

/-! ### Lemmas about `pos` -/

lemma pos_lt_length (l : List Nat) (x : Nat) (h : x ∈ l) : pos l x < l.length := by
  induction l with
  | nil => simp at h
  | cons y ys ih =>
      by_cases hxy : y = x
      · simp [pos, hxy]
      · rcases List.mem_cons.mp h with h | h
        · exact absurd h.symm hxy
        · simpa [pos, hxy] using ih h

lemma pos_append_left (l₁ l₂ : List Nat) (x : Nat) (h : x ∈ l₁) :
    pos (l₁ ++ l₂) x = pos l₁ x := by
  induction l₁ with
  | nil => simp at h
  | cons y ys ih =>
      by_cases hxy : y = x
      · simp [pos, hxy]
      · rcases List.mem_cons.mp h with h | h
        · exact absurd h.symm hxy
        · simp [pos, hxy, ih h]

lemma pos_append_right (l₁ l₂ : List Nat) (x : Nat) (h : x ∉ l₁) :
    pos (l₁ ++ l₂) x = l₁.length + pos l₂ x := by
  induction l₁ with
  | nil => simp
  | cons y ys ih =>
      have hxy : y ≠ x := by rintro rfl; exact h (List.mem_cons_self _ _)
      have hys : x ∉ ys := fun hx => h (List.mem_cons_of_mem _ hx)
      simp [pos, hxy, ih hys]
      omega

lemma pos_reverse (l : List Nat) (x : Nat) (hd : l.Nodup) (h : x ∈ l) :
    pos l.reverse x = l.length - 1 - pos l x := by
  induction l with
  | nil => simp at h
  | cons y ys ih =>
      have hnd := (List.nodup_cons.mp hd)
      by_cases hxy : y = x
      · subst hxy
        have hys : y ∉ ys.reverse := by simpa using hnd.1
        simp [pos, List.reverse_cons, pos_append_right _ _ _ hys]
      · have hys : x ∈ ys := by
          rcases List.mem_cons.mp h with h | h
          · exact absurd h.symm hxy
          · exact h
        have hlt := pos_lt_length ys x hys
        simp only [List.reverse_cons]
        rw [pos_append_left _ _ _ (by simpa using hys), ih hnd.2 hys]
        simp [pos, hxy]
        omega

/-! ### Lemmas about well-formedness and reachability -/

lemma prevOf_ge (g : GState) (i : Nat) (h : g.size ≤ i) : prevOf g i = [] := by
  simp [prevOf, opOf, nodeAt_ge _ _ h, dummyNode, Op.children]

lemma WF.children (g : GState) (hwf : WF g) :
    ∀ j, ∀ c ∈ prevOf g j, c < j := by
  intro j c hc
  rcases lt_or_ge j g.size with hj | hj
  · exact hwf j hj c hc
  · simp [prevOf_ge g j hj] at hc

lemma Reach.trans {g : GState} {i j k : Nat} (h1 : Reach g i j) (h2 : Reach g j k) :
    Reach g i k := by
  induction h2 with
  | refl => exact h1
  | tail _ hc ih => exact Reach.tail ih hc

lemma Reach.le {g : GState} (hwf : WF g) {t j : Nat} (h : Reach g t j) : j ≤ t := by
  induction h with
  | refl => exact le_rfl
  | tail _ hc ih => exact le_of_lt (lt_of_lt_of_le (WF.children g hwf _ _ hc) ih)

lemma reach_mem_of_closed {g : GState} {T : List Nat} {t : Nat}
    (hcl : ∀ v ∈ T, ∀ u ∈ prevOf g v, u ∈ T) (ht : t ∈ T) :
    ∀ j, Reach g t j → j ∈ T := by
  intro j h
  induction h with
  | refl => exact ht
  | tail _ hc ih => exact hcl _ ih _ hc

/-! ### Invariants of the topological traversal -/

/-- State invariant of `build_topo`: the output is duplicate-free, its
members are marked visited, and every already-output node's operands
are output strictly before it. -/
def GoodSt (g : GState) (st : DfsSt) : Prop :=
  st.topo.Nodup ∧
  (∀ x ∈ st.topo, x ∈ st.visited) ∧
  (∀ v ∈ st.topo, ∀ u ∈ prevOf g v, u ∈ st.topo ∧ pos st.topo u < pos st.topo v)

/-- Postcondition of a single `build_topo(i)` call: the output grows by
a block of previously-unvisited nodes reachable from `i`, the visited
set grows exactly by the new output, the invariant is preserved, and
`i` ends up in the output. -/
def DfsPost (g : GState) (i : Nat) (st st1 : DfsSt) : Prop :=
  (∃ d, st1.topo = st.topo ++ d ∧ ∀ x ∈ d, x ∉ st.visited ∧ Reach g i x) ∧
  (∀ x ∈ st.visited, x ∈ st1.visited) ∧
  (∀ x, x ∈ st1.visited ↔ x ∈ st.visited ∨ x ∈ st1.topo) ∧
  GoodSt g st1 ∧ i ∈ st1.topo

lemma DfsPost.topo_mono {g : GState} {i : Nat} {st st1 : DfsSt}
    (h : DfsPost g i st st1) : ∀ x ∈ st.topo, x ∈ st1.topo := by
  rcases h.1 with ⟨d, hd, _⟩
  intro x hx
  rw [hd]
  exact List.mem_append_left _ hx

lemma DfsPost.gray {g : GState} {i : Nat} {st st1 : DfsSt} (h : DfsPost g i st st1) :
    ∀ x ∈ st.visited, x ∉ st.topo → x ∈ st1.visited ∧ x ∉ st1.topo := by
  intro x hv ht
  refine ⟨h.2.1 x hv, ?_⟩
  rcases h.1 with ⟨d, hd, hfresh⟩
  rw [hd]
  intro hx
  rcases List.mem_append.mp hx with hx | hx
  · exact ht hx
  · exact (hfresh x hx).1 hv

/-- Folding the recursive `build_topo` calls over a list of operands of
node `i` (all strictly smaller than `i`), given the specification of
each individual call. -/
lemma foldl_dfs_spec (g : GState) (i : Nat) (F : DfsSt → Nat → DfsSt)
    (hF : ∀ c st, c < i → GoodSt g st →
      (∀ x ∈ st.visited, x ∉ st.topo → c < x) → DfsPost g c st (F st c)) :
    ∀ cs st, (∀ c ∈ cs, c < i) → GoodSt g st →
      (∀ x ∈ st.visited, x ∉ st.topo → i ≤ x) →
      (∃ d, (List.foldl F st cs).topo = st.topo ++ d ∧
        ∀ x ∈ d, x ∉ st.visited ∧ ∃ c ∈ cs, Reach g c x) ∧
      (∀ x ∈ st.visited, x ∈ (List.foldl F st cs).visited) ∧
      (∀ x, x ∈ (List.foldl F st cs).visited ↔
        x ∈ st.visited ∨ x ∈ (List.foldl F st cs).topo) ∧
      GoodSt g (List.foldl F st cs) ∧
      (∀ c ∈ cs, c ∈ (List.foldl F st cs).topo) := by
  intro cs
  induction cs with
  | nil =>
      intro st _ hGood _
      refine ⟨⟨[], by simp, by simp⟩, fun x hx => hx, ?_, hGood, by simp⟩
      intro x
      constructor
      · exact Or.inl
      · rintro (hx | hx)
        · exact hx
        · exact hGood.2.1 x hx
  | cons c cs ih =>
      intro st hlt hGood hGray
      have hci : c < i := hlt c (List.mem_cons_self _ _)
      have hpost := hF c st hci hGood
        (fun x hv ht => lt_of_lt_of_le hci (hGray x hv ht))
      have hGood1 : GoodSt g (F st c) := hpost.2.2.2.1
      have hGray1 : ∀ x ∈ (F st c).visited, x ∉ (F st c).topo → i ≤ x := by
        intro x hv ht
        rcases (hpost.2.2.1 x).mp hv with hv0 | hx
        · exact hGray x hv0 fun hx0 => ht (hpost.topo_mono x hx0)
        · exact absurd hx ht
      have hrest := ih (F st c) (fun u hu => hlt u (List.mem_cons_of_mem _ hu))
        hGood1 hGray1
      simp only [List.foldl_cons]
      obtain ⟨⟨d1, hd1, hfresh1⟩, hmono1, hVE1, _, hmem1⟩ := hpost
      obtain ⟨⟨d2, hd2, hfresh2⟩, hmono2, hVE2, hGood2, hmem2⟩ := hrest
      have htopo12 : (List.foldl F (F st c) cs).topo = st.topo ++ (d1 ++ d2) := by
        rw [hd2, hd1, List.append_assoc]
      refine ⟨⟨d1 ++ d2, htopo12, ?_⟩, ?_, ?_, hGood2, ?_⟩
      · intro x hx
        rcases List.mem_append.mp hx with hx | hx
        · exact ⟨(hfresh1 x hx).1,
            ⟨c, List.mem_cons_self _ _, (hfresh1 x hx).2⟩⟩
        · refine ⟨fun hv => (hfresh2 x hx).1 (hmono1 x hv), ?_⟩
          rcases (hfresh2 x hx).2 with ⟨u, hu, hr⟩
          exact ⟨u, List.mem_cons_of_mem _ hu, hr⟩
      · exact fun x hx => hmono2 x (hmono1 x hx)
      · intro x
        rw [hVE2 x]
        constructor
        · rintro (hv | hx)
          · rcases (hVE1 x).mp hv with hv0 | hx0
            · exact Or.inl hv0
            · refine Or.inr ?_
              rw [htopo12, ← List.append_assoc, ← hd1]
              exact List.mem_append_left _ hx0
          · exact Or.inr hx
        · rintro (hv | hx)
          · exact Or.inl ((hVE1 x).mpr (Or.inl hv))
          · exact Or.inr hx
      · intro u hu
        rcases List.mem_cons.mp hu with hu | hu
        · subst hu
          rw [hd2]
          exact List.mem_append_left _ hmem1
        · exact hmem2 u hu

/-- Main specification of a single `build_topo` call, by induction on
the fuel: under well-formedness the fuel `i + 1` always suffices
because recursive calls descend to strictly smaller identities, and a
gray (in-progress) node is never an operand of a node below it. -/
lemma dfsF_spec (g : GState) (hwf : ∀ j, ∀ c ∈ prevOf g j, c < j) :
    ∀ fuel i st, i < fuel → GoodSt g st →
      (∀ x ∈ st.visited, x ∉ st.topo → i < x) →
      DfsPost g i st (dfsF g fuel i st) := by
  intro fuel
  induction fuel with
  | zero => intro i st hi; omega
  | succ fuel ih =>
      intro i st hi hGood hGray
      by_cases hvis : i ∈ st.visited
      · have hit : i ∈ st.topo := by
          by_contra ht
          exact lt_irrefl i (hGray i hvis ht)
        rw [dfsF, if_pos hvis]
        refine ⟨⟨[], by simp, by simp⟩, fun x hx => hx, ?_, hGood, hit⟩
        intro x
        constructor
        · exact Or.inl
        · rintro (hx | hx)
          · exact hx
          · exact hGood.2.1 x hx
      · rw [dfsF, if_neg hvis]
        have hGoodA : GoodSt g ⟨i :: st.visited, st.topo⟩ :=
          ⟨hGood.1, fun x hx => List.mem_cons_of_mem _ (hGood.2.1 x hx), hGood.2.2⟩
        have hGrayA : ∀ x ∈ (⟨i :: st.visited, st.topo⟩ : DfsSt).visited,
            x ∉ (⟨i :: st.visited, st.topo⟩ : DfsSt).topo → i ≤ x := by
          intro x hv ht
          rcases List.mem_cons.mp hv with hv | hv
          · omega
          · exact le_of_lt (hGray x hv ht)
        have hfold := foldl_dfs_spec g i (fun s c => dfsF g fuel c s)
          (fun c st0 hc => ih c st0 (by omega)) (prevOf g i)
          ⟨i :: st.visited, st.topo⟩ (fun c hc => hwf i c hc) hGoodA hGrayA
        set stB := List.foldl (fun s c => dfsF g fuel c s)
          (⟨i :: st.visited, st.topo⟩ : DfsSt) (prevOf g i) with hstB
        obtain ⟨⟨d1, hd1, hfresh1⟩, hmono1, hVE1, hGoodB, hmemB⟩ := hfold
        show DfsPost g i st ⟨stB.visited, stB.topo ++ [i]⟩
        have hiA : i ∈ (⟨i :: st.visited, st.topo⟩ : DfsSt).visited :=
          List.mem_cons_self _ _
        have hit : i ∉ st.topo := fun hx => hvis (hGood.2.1 i hx)
        have hitB : i ∉ stB.topo := by
          rw [hd1]
          intro hx
          rcases List.mem_append.mp hx with hx | hx
          · exact hit hx
          · exact (hfresh1 i hx).1 hiA
        have hd1A : stB.topo = st.topo ++ d1 := hd1
        refine ⟨⟨d1 ++ [i], by
          show stB.topo ++ [i] = st.topo ++ (d1 ++ [i])
          rw [hd1A, List.append_assoc], ?_⟩, ?_, ?_, ?_, ?_⟩
        · intro x hx
          rcases List.mem_append.mp hx with hx | hx
          · refine ⟨fun hv => (hfresh1 x hx).1 (List.mem_cons_of_mem _ hv), ?_⟩
            rcases (hfresh1 x hx).2 with ⟨c, hc, hr⟩
            exact Reach.trans (Reach.tail (Reach.refl i) hc) hr
          · rw [List.mem_singleton.mp hx]
            exact ⟨hvis, Reach.refl i⟩
        · exact fun x hx => hmono1 x (List.mem_cons_of_mem _ hx)
        · intro x
          rw [hVE1 x]
          simp only [List.mem_cons, List.mem_append, List.mem_singleton]
          tauto
        · refine ⟨?_, ?_, ?_⟩
          · rw [List.nodup_append]
            exact ⟨hGoodB.1, List.nodup_singleton i,
              fun a ha hb => hitB (by rwa [List.mem_singleton.mp hb] at ha)⟩
          · intro x hx
            rcases List.mem_append.mp hx with hx | hx
            · exact hGoodB.2.1 x hx
            · rw [List.mem_singleton.mp hx]
              exact hmono1 i hiA
          · intro v hv u hu
            rcases List.mem_append.mp hv with hv | hv
            · have h0 := hGoodB.2.2 v hv u hu
              refine ⟨List.mem_append_left _ h0.1, ?_⟩
              rw [pos_append_left _ _ _ h0.1, pos_append_left _ _ _ hv]
              exact h0.2
            · rw [List.mem_singleton.mp hv] at hu ⊢
              have humem : u ∈ stB.topo := hmemB u hu
              refine ⟨List.mem_append_left _ humem, ?_⟩
              rw [pos_append_left _ _ _ humem,
                pos_append_right _ _ _ hitB]
              have := pos_lt_length stB.topo u humem
              simp [pos]
              omega
        · exact List.mem_append_right _ (List.mem_singleton.mpr rfl)

/-- The topological list produced by `build_topo(t)`: duplicate-free,
containing exactly the nodes reachable from `t`, with every node's
operands listed strictly before it. -/
lemma dfs_main (g : GState) (hwf : WF g) (t : Nat) :
    (dfs g t).Nodup ∧
    (∀ x, x ∈ dfs g t ↔ Reach g t x) ∧
    (∀ v ∈ dfs g t, ∀ u ∈ prevOf g v,
      u ∈ dfs g t ∧ pos (dfs g t) u < pos (dfs g t) v) := by
  have h := dfsF_spec g (WF.children g hwf) (t + 1) t ⟨[], []⟩ (by omega)
    ⟨List.nodup_nil, by simp, by simp⟩ (by simp)
  obtain ⟨⟨d, hd, hfresh⟩, _, _, hGood, hmem⟩ := h
  have hdfs : dfs g t = d := by
    simpa [dfs] using hd
  refine ⟨by rw [dfs] at *; exact hGood.1, ?_, ?_⟩
  · intro x
    constructor
    · intro hx
      rw [hdfs] at hx
      exact (hfresh x hx).2
    · intro hx
      exact reach_mem_of_closed (fun v hv u hu => (hGood.2.2 v hv u hu).1) hmem x hx
  · exact hGood.2.2

/-- `build_topo` appends the terminal node last. -/
lemma dfs_concat (g : GState) (t : Nat) : ∃ X, dfs g t = X ++ [t] := by
  refine ⟨(List.foldl (fun s c => dfsF g t c s) ⟨[t], []⟩ (prevOf g t)).topo, ?_⟩
  simp [dfs, dfsF]

/-! ### Properties of one backward step and of the backward fold -/

lemma stepB_leaf_eq (g : GState) (i : Nat) (hop : opOf g i = Op.leaf) :
    stepB g i = Except.ok g := by
  show stepOp g i (opOf g i) = Except.ok g
  rw [hop]
  rfl

lemma stepB_add_eq (g : GState) (i a b : Nat) (hop : opOf g i = Op.add a b) :
    stepB g i = Except.ok (updGrad (updGrad g a (fun x => x + gradOf g i)) b
      (fun x => x + gradOf (updGrad g a (fun x => x + gradOf g i)) i)) := by
  show stepOp g i (opOf g i) = _
  rw [hop]
  rfl

lemma stepB_sub_eq (g : GState) (i a b : Nat) (hop : opOf g i = Op.sub a b) :
    stepB g i = Except.ok (updGrad (updGrad g a (fun x => x + gradOf g i)) b
      (fun x => x - gradOf (updGrad g a (fun x => x + gradOf g i)) i)) := by
  show stepOp g i (opOf g i) = _
  rw [hop]
  rfl

lemma stepB_mul_eq (g : GState) (i a b : Nat) (hop : opOf g i = Op.mul a b) :
    stepB g i = Except.ok
      (updGrad (updGrad g a (fun x => x + gradOf g i * dataOf g b)) b
        (fun x => x + gradOf (updGrad g a (fun x => x + gradOf g i * dataOf g b)) i *
          dataOf (updGrad g a (fun x => x + gradOf g i * dataOf g b)) a)) := by
  show stepOp g i (opOf g i) = _
  rw [hop]
  rfl

lemma stepB_div_eq (g : GState) (i a b : Nat) (hop : opOf g i = Op.div a b) :
    stepB g i =
      if dataOf g b = 0 then Except.error Err.divisionByZero
      else Except.ok
        (updGrad (updGrad g a (fun x => x + gradOf g i / dataOf g b)) b
          (fun x => x + gradOf (updGrad g a (fun x => x + gradOf g i / dataOf g b)) i *
            (-dataOf (updGrad g a (fun x => x + gradOf g i / dataOf g b)) a /
              (dataOf (updGrad g a (fun x => x + gradOf g i / dataOf g b)) b *
               dataOf (updGrad g a (fun x => x + gradOf g i / dataOf g b)) b)))) := by
  show stepOp g i (opOf g i) = _
  rw [hop]
  rfl

lemma stepB_relu_eq (g : GState) (i a : Nat) (hop : opOf g i = Op.relu a) :
    stepB g i = Except.ok (updGrad g a
      (fun x => x + (if 0 < dataOf g i then 1 else 0) * gradOf g i)) := by
  show stepOp g i (opOf g i) = _
  rw [hop]
  rfl

lemma stepB_preserves (g : GState) (i : Nat) (s1 : GState)
    (h : stepB g i = Except.ok s1) :
    (∀ j, dataOf s1 j = dataOf g j) ∧ (∀ j, opOf s1 j = opOf g j) ∧
      s1.size = g.size := by
  cases hop : opOf g i
  case leaf =>
      rw [stepB_leaf_eq g i hop] at h
      injection h with h
      subst h
      exact ⟨fun j => rfl, fun j => rfl, rfl⟩
  case add a b =>
      rw [stepB_add_eq g i a b hop] at h
      injection h with h
      subst h
      exact ⟨fun j => by simp [dataOf_updGrad], fun j => by simp [opOf_updGrad],
        by simp [size_updGrad]⟩
  case sub a b =>
      rw [stepB_sub_eq g i a b hop] at h
      injection h with h
      subst h
      exact ⟨fun j => by simp [dataOf_updGrad], fun j => by simp [opOf_updGrad],
        by simp [size_updGrad]⟩
  case mul a b =>
      rw [stepB_mul_eq g i a b hop] at h
      injection h with h
      subst h
      exact ⟨fun j => by simp [dataOf_updGrad], fun j => by simp [opOf_updGrad],
        by simp [size_updGrad]⟩
  case div a b =>
      rw [stepB_div_eq g i a b hop] at h
      by_cases hz : dataOf g b = 0
      · rw [if_pos hz] at h
        simp at h
      · rw [if_neg hz] at h
        injection h with h
        subst h
        exact ⟨fun j => by simp [dataOf_updGrad], fun j => by simp [opOf_updGrad],
          by simp [size_updGrad]⟩
  case relu a =>
      rw [stepB_relu_eq g i a hop] at h
      injection h with h
      subst h
      exact ⟨fun j => by simp [dataOf_updGrad], fun j => by simp [opOf_updGrad],
        by simp [size_updGrad]⟩

lemma stepB_grad_ne (g : GState) (i : Nat) (s1 : GState)
    (h : stepB g i = Except.ok s1) (j : Nat) (hj : j ∉ (opOf g i).children) :
    gradOf s1 j = gradOf g j := by
  cases hop : opOf g i <;> rw [hop] at hj <;>
    simp only [Op.children, List.mem_cons, List.mem_singleton, List.not_mem_nil,
      not_or, not_false_iff] at hj
  case leaf =>
      rw [stepB_leaf_eq g i hop] at h
      injection h with h
      subst h; rfl
  case add a b =>
      rw [stepB_add_eq g i a b hop] at h
      injection h with h
      subst h
      rw [gradOf_updGrad_ne _ _ _ _ hj.2.1, gradOf_updGrad_ne _ _ _ _ hj.1]
  case sub a b =>
      rw [stepB_sub_eq g i a b hop] at h
      injection h with h
      subst h
      rw [gradOf_updGrad_ne _ _ _ _ hj.2.1, gradOf_updGrad_ne _ _ _ _ hj.1]
  case mul a b =>
      rw [stepB_mul_eq g i a b hop] at h
      injection h with h
      subst h
      rw [gradOf_updGrad_ne _ _ _ _ hj.2.1, gradOf_updGrad_ne _ _ _ _ hj.1]
  case div a b =>
      rw [stepB_div_eq g i a b hop] at h
      by_cases hz : dataOf g b = 0
      · rw [if_pos hz] at h
        simp at h
      · rw [if_neg hz] at h
        injection h with h
        subst h
        rw [gradOf_updGrad_ne _ _ _ _ hj.2.1, gradOf_updGrad_ne _ _ _ _ hj.1]
  case relu a =>
      rw [stepB_relu_eq g i a hop] at h
      injection h with h
      subst h
      rw [gradOf_updGrad_ne _ _ _ _ hj.1]


/-- Generic invariant lemma for the backward fold in the `Except`
monad. -/
lemma foldlM_inv (P : GState → Prop) :
    ∀ l : List Nat,
      (∀ s i, i ∈ l → P s → ∀ s1, stepB s i = Except.ok s1 → P s1) →
      ∀ s s1, P s → List.foldlM stepB s l = Except.ok s1 → P s1 := by
  intro l
  induction l with
  | nil =>
      intro _ s s1 hP h
      have h2 : Except.ok s = Except.ok s1 := h
      injection h2 with h2
      rwa [← h2]
  | cons i l ih =>
      intro hstep s s1 hP h
      rw [List.foldlM_cons] at h
      cases hs : stepB s i with
      | error e =>
          rw [hs] at h
          have h2 : (Except.error e : Except Err GState) = Except.ok s1 := h
          exact absurd h2 (by simp)
      | ok s2 =>
          rw [hs] at h
          have h2 : List.foldlM stepB s2 l = Except.ok s1 := h
          exact ih (fun s0 j hj => hstep s0 j (List.mem_cons_of_mem _ hj)) s2 s1
            (hstep s i (List.mem_cons_self _ _) hP s2 hs) h2

/-- `backward` never changes any `data` field, never changes any
node's operation record, and never changes the number of nodes. -/
lemma backward_preserves (g : GState) (t : Nat) (s : GState)
    (h : backward g t = Except.ok s) :
    (∀ j, dataOf s j = dataOf g j) ∧ (∀ j, opOf s j = opOf g j) ∧
      s.size = g.size := by
  have h0 : List.foldlM stepB (updGrad g t (fun _ => 1)) (dfs g t).reverse
      = Except.ok s := h
  refine foldlM_inv
    (fun s0 => (∀ j, dataOf s0 j = dataOf g j) ∧ (∀ j, opOf s0 j = opOf g j) ∧
      s0.size = g.size) _ ?_ _ _ ?_ h0
  · intro s0 i _ hP s1 hs
    obtain ⟨hd, ho, hn⟩ := stepB_preserves s0 i s1 hs
    exact ⟨fun j => (hd j).trans (hP.1 j), fun j => (ho j).trans (hP.2.1 j),
      hn.trans hP.2.2⟩
  · exact ⟨fun j => dataOf_updGrad _ _ _ _, fun j => opOf_updGrad _ _ _ _,
      size_updGrad _ _ _⟩

/-- After a successful `backward`, the terminal's gradient is exactly
the seed 1: no reachable node has the terminal as an operand. -/
lemma backward_grad_terminal (g : GState) (t : Nat) (s : GState) (hwf : WF g)
    (ht : t < g.size) (h : backward g t = Except.ok s) : gradOf s t = 1 := by
  have h0 : List.foldlM stepB (updGrad g t (fun _ => 1)) (dfs g t).reverse
      = Except.ok s := h
  have hmain := dfs_main g hwf t
  have key := foldlM_inv
    (fun s0 => gradOf s0 t = 1 ∧ ∀ j, opOf s0 j = opOf g j) _ ?_ _ _ ?_ h0
  · exact key.1
  · intro s0 i hi hP s1 hs
    have hreach : Reach g t i := (hmain.2.1 i).mp (List.mem_reverse.mp hi)
    have hle : i ≤ t := Reach.le hwf hreach
    refine ⟨?_, fun j => ((stepB_preserves s0 i s1 hs).2.1 j).trans (hP.2 j)⟩
    rw [← hP.1]
    refine stepB_grad_ne s0 i s1 hs t ?_
    intro hmem
    rw [hP.2 i] at hmem
    have : t < i := WF.children g hwf i t hmem
    omega
  · exact ⟨gradOf_updGrad_self g t _ ht, fun j => opOf_updGrad _ _ _ _⟩

/-! ### Construction lemmas: pushing a node leaves existing nodes intact -/

lemma size_push (g : GState) (n : Node) : (g.push n).size = g.size + 1 := by
  simp [GState.push, GState.size]

lemma dataOf_push_lt (g : GState) (n : Node) (i : Nat) (h : i < g.size) :
    dataOf (g.push n) i = dataOf g i := by
  simp [dataOf, GState.push, nodeAt_append_lt _ _ _ h]

lemma gradOf_push_lt (g : GState) (n : Node) (i : Nat) (h : i < g.size) :
    gradOf (g.push n) i = gradOf g i := by
  simp [gradOf, GState.push, nodeAt_append_lt _ _ _ h]

lemma opOf_push_lt (g : GState) (n : Node) (i : Nat) (h : i < g.size) :
    opOf (g.push n) i = opOf g i := by
  simp [opOf, GState.push, nodeAt_append_lt _ _ _ h]

lemma dataOf_push_self (g : GState) (n : Node) :
    dataOf (g.push n) g.size = n.data := by
  simp [dataOf, GState.push, GState.size, nodeAt_append_self]

lemma gradOf_push_self (g : GState) (n : Node) :
    gradOf (g.push n) g.size = n.grad := by
  simp [gradOf, GState.push, GState.size, nodeAt_append_self]

lemma opOf_push_self (g : GState) (n : Node) :
    opOf (g.push n) g.size = n.op := by
  simp [opOf, GState.push, GState.size, nodeAt_append_self]

lemma liftFloat_data (g : GState) (arg : PyArg) (i : Nat) (h : i < g.size) :
    dataOf (liftFloat g arg).1 i = dataOf g i := by
  cases arg <;> simp [liftFloat, mkLeaf]
  exact dataOf_push_lt _ _ _ h

lemma liftFloat_size (g : GState) (arg : PyArg) :
    g.size ≤ (liftFloat g arg).1.size := by
  cases arg <;> simp [liftFloat, mkLeaf, size_push]

/-! ### Per-operation characterization of the backward rules -/

lemma stepB_add_spec (s : GState) (i a b : Nat) (hop : opOf s i = Op.add a b)
    (hia : i ≠ a) (hab : a ≠ b) (ha : a < s.size) (hb : b < s.size) :
    ∃ s1, stepB s i = Except.ok s1 ∧
      gradOf s1 a = gradOf s a + gradOf s i ∧
      gradOf s1 b = gradOf s b + gradOf s i ∧
      (∀ j, j ≠ a → j ≠ b → gradOf s1 j = gradOf s j) ∧
      (∀ j, dataOf s1 j = dataOf s j) := by
  refine ⟨_, stepB_add_eq s i a b hop, ?_, ?_, ?_, fun j => by simp [dataOf_updGrad]⟩
  · rw [gradOf_updGrad_ne _ _ _ _ hab, gradOf_updGrad_self _ _ _ ha]
  · rw [gradOf_updGrad_self _ _ _ (by rwa [size_updGrad]),
      gradOf_updGrad_ne _ _ _ _ (Ne.symm hab), gradOf_updGrad_ne _ _ _ _ hia]
  · intro j hja hjb
    rw [gradOf_updGrad_ne _ _ _ _ hjb, gradOf_updGrad_ne _ _ _ _ hja]

lemma stepB_sub_spec (s : GState) (i a b : Nat) (hop : opOf s i = Op.sub a b)
    (hia : i ≠ a) (hab : a ≠ b) (ha : a < s.size) (hb : b < s.size) :
    ∃ s1, stepB s i = Except.ok s1 ∧
      gradOf s1 a = gradOf s a + gradOf s i ∧
      gradOf s1 b = gradOf s b - gradOf s i ∧
      (∀ j, j ≠ a → j ≠ b → gradOf s1 j = gradOf s j) ∧
      (∀ j, dataOf s1 j = dataOf s j) := by
  refine ⟨_, stepB_sub_eq s i a b hop, ?_, ?_, ?_, fun j => by simp [dataOf_updGrad]⟩
  · rw [gradOf_updGrad_ne _ _ _ _ hab, gradOf_updGrad_self _ _ _ ha]
  · rw [gradOf_updGrad_self _ _ _ (by rwa [size_updGrad]),
      gradOf_updGrad_ne _ _ _ _ (Ne.symm hab), gradOf_updGrad_ne _ _ _ _ hia]
  · intro j hja hjb
    rw [gradOf_updGrad_ne _ _ _ _ hjb, gradOf_updGrad_ne _ _ _ _ hja]

lemma stepB_mul_spec (s : GState) (i a b : Nat) (hop : opOf s i = Op.mul a b)
    (hia : i ≠ a) (hab : a ≠ b) (ha : a < s.size) (hb : b < s.size) :
    ∃ s1, stepB s i = Except.ok s1 ∧
      gradOf s1 a = gradOf s a + gradOf s i * dataOf s b ∧
      gradOf s1 b = gradOf s b + gradOf s i * dataOf s a ∧
      (∀ j, j ≠ a → j ≠ b → gradOf s1 j = gradOf s j) ∧
      (∀ j, dataOf s1 j = dataOf s j) := by
  refine ⟨_, stepB_mul_eq s i a b hop, ?_, ?_, ?_, fun j => by simp [dataOf_updGrad]⟩
  · rw [gradOf_updGrad_ne _ _ _ _ hab, gradOf_updGrad_self _ _ _ ha]
  · rw [gradOf_updGrad_self _ _ _ (by rwa [size_updGrad]),
      gradOf_updGrad_ne _ _ _ _ (Ne.symm hab), gradOf_updGrad_ne _ _ _ _ hia,
      dataOf_updGrad]
  · intro j hja hjb
    rw [gradOf_updGrad_ne _ _ _ _ hjb, gradOf_updGrad_ne _ _ _ _ hja]

lemma stepB_div_spec (s : GState) (i a b : Nat) (hop : opOf s i = Op.div a b)
    (hia : i ≠ a) (hab : a ≠ b) (ha : a < s.size) (hb : b < s.size)
    (hz : dataOf s b ≠ 0) :
    ∃ s1, stepB s i = Except.ok s1 ∧
      gradOf s1 a = gradOf s a + gradOf s i / dataOf s b ∧
      gradOf s1 b = gradOf s b +
        gradOf s i * (-dataOf s a / (dataOf s b * dataOf s b)) ∧
      (∀ j, j ≠ a → j ≠ b → gradOf s1 j = gradOf s j) ∧
      (∀ j, dataOf s1 j = dataOf s j) := by
  refine ⟨_, by rw [stepB_div_eq s i a b hop, if_neg hz], ?_, ?_, ?_,
    fun j => by simp [dataOf_updGrad]⟩
  · rw [gradOf_updGrad_ne _ _ _ _ hab, gradOf_updGrad_self _ _ _ ha]
  · rw [gradOf_updGrad_self _ _ _ (by rwa [size_updGrad]),
      gradOf_updGrad_ne _ _ _ _ (Ne.symm hab), gradOf_updGrad_ne _ _ _ _ hia,
      dataOf_updGrad, dataOf_updGrad]
  · intro j hja hjb
    rw [gradOf_updGrad_ne _ _ _ _ hjb, gradOf_updGrad_ne _ _ _ _ hja]

lemma stepB_relu_spec (s : GState) (i a : Nat) (hop : opOf s i = Op.relu a)
    (ha : a < s.size) :
    ∃ s1, stepB s i = Except.ok s1 ∧
      gradOf s1 a = gradOf s a + (if 0 < dataOf s i then 1 else 0) * gradOf s i ∧
      (∀ j, j ≠ a → gradOf s1 j = gradOf s j) ∧
      (∀ j, dataOf s1 j = dataOf s j) := by
  refine ⟨_, stepB_relu_eq s i a hop, ?_, ?_, fun j => by simp [dataOf_updGrad]⟩
  · rw [gradOf_updGrad_self _ _ _ ha]
  · intro j hja
    rw [gradOf_updGrad_ne _ _ _ _ hja]

/-! ### Exact gradient formulas for one backward step

These express the effect of one `_backward()` invocation on every
gradient at once, including the case where both operands are the same
node (the two sequential read-modify-writes then both land on it). -/

lemma stepB_add_grad (s : GState) (i a b : Nat) (hop : opOf s i = Op.add a b)
    (hia : i ≠ a) (ha : a < s.size) (hb : b < s.size)
    (s1 : GState) (h : stepB s i = Except.ok s1) :
    ∀ j, gradOf s1 j = gradOf s j
      + (if j = a then gradOf s i else 0)
      + (if j = b then gradOf s i else 0) := by
  rw [stepB_add_eq s i a b hop] at h
  injection h with h
  subst h
  intro j
  have hg1i : gradOf (updGrad s a (fun x => x + gradOf s i)) i = gradOf s i :=
    gradOf_updGrad_ne _ _ _ _ hia
  by_cases hjb : j = b
  · subst hjb
    rw [gradOf_updGrad_self _ _ _ (by rw [size_updGrad]; exact hb), hg1i,
      if_pos rfl]
    by_cases hja : j = a
    · subst hja
      rw [gradOf_updGrad_self _ _ _ ha, if_pos rfl]
    · rw [gradOf_updGrad_ne _ _ _ _ hja, if_neg hja]
      ring
  · rw [gradOf_updGrad_ne _ _ _ _ hjb, if_neg hjb]
    by_cases hja : j = a
    · subst hja
      rw [gradOf_updGrad_self _ _ _ ha, if_pos rfl]
      ring
    · rw [gradOf_updGrad_ne _ _ _ _ hja, if_neg hja]
      ring

lemma stepB_sub_grad (s : GState) (i a b : Nat) (hop : opOf s i = Op.sub a b)
    (hia : i ≠ a) (ha : a < s.size) (hb : b < s.size)
    (s1 : GState) (h : stepB s i = Except.ok s1) :
    ∀ j, gradOf s1 j = gradOf s j
      + (if j = a then gradOf s i else 0)
      - (if j = b then gradOf s i else 0) := by
  rw [stepB_sub_eq s i a b hop] at h
  injection h with h
  subst h
  intro j
  have hg1i : gradOf (updGrad s a (fun x => x + gradOf s i)) i = gradOf s i :=
    gradOf_updGrad_ne _ _ _ _ hia
  by_cases hjb : j = b
  · subst hjb
    rw [gradOf_updGrad_self _ _ _ (by rw [size_updGrad]; exact hb), hg1i,
      if_pos rfl]
    by_cases hja : j = a
    · subst hja
      rw [gradOf_updGrad_self _ _ _ ha, if_pos rfl]
    · rw [gradOf_updGrad_ne _ _ _ _ hja, if_neg hja]
      ring
  · rw [gradOf_updGrad_ne _ _ _ _ hjb, if_neg hjb]
    by_cases hja : j = a
    · subst hja
      rw [gradOf_updGrad_self _ _ _ ha, if_pos rfl]
      ring
    · rw [gradOf_updGrad_ne _ _ _ _ hja, if_neg hja]
      ring

lemma stepB_mul_grad (s : GState) (i a b : Nat) (hop : opOf s i = Op.mul a b)
    (hia : i ≠ a) (ha : a < s.size) (hb : b < s.size)
    (s1 : GState) (h : stepB s i = Except.ok s1) :
    ∀ j, gradOf s1 j = gradOf s j
      + (if j = a then gradOf s i * dataOf s b else 0)
      + (if j = b then gradOf s i * dataOf s a else 0) := by
  rw [stepB_mul_eq s i a b hop] at h
  injection h with h
  subst h
  intro j
  have hg1i : gradOf (updGrad s a (fun x => x + gradOf s i * dataOf s b)) i
      = gradOf s i := gradOf_updGrad_ne _ _ _ _ hia
  have hd1a : dataOf (updGrad s a (fun x => x + gradOf s i * dataOf s b)) a
      = dataOf s a := dataOf_updGrad _ _ _ _
  by_cases hjb : j = b
  · subst hjb
    rw [gradOf_updGrad_self _ _ _ (by rw [size_updGrad]; exact hb), hg1i, hd1a,
      if_pos rfl]
    by_cases hja : j = a
    · subst hja
      rw [gradOf_updGrad_self _ _ _ ha, if_pos rfl]
    · rw [gradOf_updGrad_ne _ _ _ _ hja, if_neg hja]
      ring
  · rw [gradOf_updGrad_ne _ _ _ _ hjb, if_neg hjb]
    by_cases hja : j = a
    · subst hja
      rw [gradOf_updGrad_self _ _ _ ha, if_pos rfl]
      ring
    · rw [gradOf_updGrad_ne _ _ _ _ hja, if_neg hja]
      ring

lemma stepB_div_grad (s : GState) (i a b : Nat) (hop : opOf s i = Op.div a b)
    (hia : i ≠ a) (ha : a < s.size) (hb : b < s.size)
    (s1 : GState) (h : stepB s i = Except.ok s1) :
    ∀ j, gradOf s1 j = gradOf s j
      + (if j = a then gradOf s i / dataOf s b else 0)
      + (if j = b then
          gradOf s i * (-dataOf s a / (dataOf s b * dataOf s b)) else 0) := by
  rw [stepB_div_eq s i a b hop] at h
  by_cases hz : dataOf s b = 0
  · rw [if_pos hz] at h
    exact absurd h (by simp)
  · rw [if_neg hz] at h
    injection h with h
    subst h
    intro j
    have hg1i : gradOf (updGrad s a (fun x => x + gradOf s i / dataOf s b)) i
        = gradOf s i := gradOf_updGrad_ne _ _ _ _ hia
    have hd1a : dataOf (updGrad s a (fun x => x + gradOf s i / dataOf s b)) a
        = dataOf s a := dataOf_updGrad _ _ _ _
    have hd1b : dataOf (updGrad s a (fun x => x + gradOf s i / dataOf s b)) b
        = dataOf s b := dataOf_updGrad _ _ _ _
    by_cases hjb : j = b
    · subst hjb
      rw [gradOf_updGrad_self _ _ _ (by rw [size_updGrad]; exact hb), hg1i,
        hd1a, hd1b, if_pos rfl]
      by_cases hja : j = a
      · subst hja
        rw [gradOf_updGrad_self _ _ _ ha, if_pos rfl]
      · rw [gradOf_updGrad_ne _ _ _ _ hja, if_neg hja]
        ring
    · rw [gradOf_updGrad_ne _ _ _ _ hjb, if_neg hjb]
      by_cases hja : j = a
      · subst hja
        rw [gradOf_updGrad_self _ _ _ ha, if_pos rfl]
        ring
      · rw [gradOf_updGrad_ne _ _ _ _ hja, if_neg hja]
        ring

lemma stepB_relu_grad (s : GState) (i a : Nat) (hop : opOf s i = Op.relu a)
    (ha : a < s.size) (s1 : GState) (h : stepB s i = Except.ok s1) :
    ∀ j, gradOf s1 j = gradOf s j
      + (if j = a then (if 0 < dataOf s i then 1 else 0) * gradOf s i else 0) := by
  rw [stepB_relu_eq s i a hop] at h
  injection h with h
  subst h
  intro j
  by_cases hja : j = a
  · subst hja
    rw [gradOf_updGrad_self _ _ _ ha, if_pos rfl]
  · rw [gradOf_updGrad_ne _ _ _ _ hja, if_neg hja]
    ring

/-! ### A backward run over an all-leaf-operand terminal is one step -/

lemma foldlM_leaf (l : List Nat) :
    ∀ s : GState, (∀ x ∈ l, opOf s x = Op.leaf) →
      List.foldlM stepB s l = Except.ok s := by
  induction l with
  | nil => intro s _; rfl
  | cons x l ih =>
      intro s hl
      rw [List.foldlM_cons, stepB_leaf_eq s x (hl x (List.mem_cons_self _ _))]
      show List.foldlM stepB s l = Except.ok s
      exact ih s (fun y hy => hl y (List.mem_cons_of_mem _ hy))

/-- In a graph whose terminal's operands are all leaves, the only
nodes reachable from the terminal are the terminal and its operands. -/
lemma shallow_reach (g : GState) (t : Nat)
    (hleaf : ∀ u ∈ prevOf g t, opOf g u = Op.leaf) :
    ∀ u, Reach g t u → u = t ∨ u ∈ prevOf g t := by
  intro u h
  induction h with
  | refl => exact Or.inl rfl
  | tail hr hc ih =>
      rcases ih with h0 | h0
      · rw [h0] at hc
        exact Or.inr hc
      · have h2 := hleaf _ h0
        rw [prevOf, h2] at hc
        exact absurd hc (List.not_mem_nil _)

/-- When every operand of the terminal is a leaf, a successful
`backward` is exactly the seed followed by the terminal's own rule:
all other invoked rules are leaf no-ops. -/
lemma backward_shallow (g : GState) (t : Nat) (hwf : WF g)
    (hleaf : ∀ u ∈ prevOf g t, opOf g u = Op.leaf) (s : GState)
    (h : backward g t = Except.ok s) :
    stepB (updGrad g t (fun _ => 1)) t = Except.ok s := by
  obtain ⟨X, hX⟩ := dfs_concat g t
  obtain ⟨hnd, hmem, _⟩ := dfs_main g hwf t
  have h0 : List.foldlM stepB (updGrad g t (fun _ => 1)) (dfs g t).reverse
      = Except.ok s := h
  rw [hX, List.reverse_append, List.reverse_singleton, List.singleton_append,
    List.foldlM_cons] at h0
  cases hs : stepB (updGrad g t (fun _ => 1)) t with
  | error e =>
      rw [hs] at h0
      have h1 : (Except.error e : Except Err GState) = Except.ok s := h0
      exact absurd h1 (by simp)
  | ok sA =>
      rw [hs] at h0
      have h1 : List.foldlM stepB sA X.reverse = Except.ok s := h0
      have hto : t ∉ X := by
        intro hmemX
        rw [hX, List.nodup_append] at hnd
        exact hnd.2.2 hmemX (List.mem_singleton.mpr rfl)
      have hleafX : ∀ x ∈ X.reverse, opOf sA x = Op.leaf := by
        intro x hx
        rw [List.mem_reverse] at hx
        have hxr : Reach g t x :=
          (hmem x).mp (by rw [hX]; exact List.mem_append_left _ hx)
        rcases shallow_reach g t hleaf x hxr with h2 | h2
        · exact absurd (h2 ▸ hx) hto
        · have h3 : opOf sA x = opOf (updGrad g t (fun _ => 1)) x :=
            (stepB_preserves _ _ _ hs).2.1 x
          rw [h3, opOf_updGrad]
          exact hleaf x h2
      rw [foldlM_leaf X.reverse sA hleafX] at h1
      injection h1 with h1
      rw [← h1]

/-! ### Concrete graphs used in the claim instances -/

/-- The empty arena. -/
def emptyG : GState := ⟨[]⟩

/-- `a = Scalar(2.0); b = Scalar(3.0); p = a * b` — nodes 0, 1, 2. -/
def mulExample : GState := (mulS ((mkLeaf ((mkLeaf emptyG 2).1) 3).1) 0 1).1

/-- The state `backward` leaves `mulExample` in (values unchanged,
gradients filled). -/
def mulExampleRes : GState :=
  ⟨[⟨2, 3, Op.leaf⟩, ⟨3, 2, Op.leaf⟩, ⟨6, 1, Op.mul 0 1⟩]⟩

/-- The state a second `backward` leaves `mulExampleRes` in: both leaf
gradients doubled, terminal re-seeded to 1. -/
def mulExampleRes2 : GState :=
  ⟨[⟨2, 6, Op.leaf⟩, ⟨3, 4, Op.leaf⟩, ⟨6, 1, Op.mul 0 1⟩]⟩

/-- `a = Scalar(3.0); b = a + a` — nodes 0, 1; node 0 is both operands
of node 1. -/
def diamondG : GState := (addS ((mkLeaf emptyG 3).1) 0 0).1

/-- `a = Scalar(4.0); z1 = Scalar(0.0); b = a + z1; z2 = Scalar(0.0);
c = b + z2` — a chain of depth 2 with leaf `a` at node 0, intermediate
`b` at node 2 and terminal `c` at node 4. -/
def chainG : GState :=
  (addS ((mkLeaf ((addS ((mkLeaf ((mkLeaf emptyG 4).1) 0).1) 0 1).1) 0).1) 2 3).1

/-- `x = Scalar(-5.0); y = x.relu()` — nodes 0, 1. -/
def reluNegG : GState := (reluS ((mkLeaf emptyG (-5)).1) 0).1

/-- `x = Scalar(5.0); y = x.relu()` — nodes 0, 1. -/
def reluPosG : GState := (reluS ((mkLeaf emptyG 5).1) 0).1

/-- `x = Scalar(0.0); y = x.relu()` — nodes 0, 1. -/
def reluZeroG : GState := (reluS ((mkLeaf emptyG 0).1) 0).1

/-- A single leaf with value 0 (a zero-valued divisor). -/
def zeroLeafG : GState := (mkLeaf emptyG 0).1

/-- A single leaf with value 1. -/
def oneLeafG : GState := (mkLeaf emptyG 1).1

/-- An arena holding a division node whose divisor currently has value
0 (not constructible through the API, used to exercise the division
closure's own zero check). -/
def divNodeG : GState := ⟨[⟨1, 0, Op.leaf⟩, ⟨0, 0, Op.leaf⟩, ⟨5, 0, Op.div 0 1⟩]⟩

/-- A single leaf carrying a stale gradient 5 from some earlier pass. -/
def seedG : GState := ⟨[⟨2, 5, Op.leaf⟩]⟩

/-- The state `seedG` left in after `backward` on node 0. -/
def seedGres : GState := ⟨[⟨2, 1, Op.leaf⟩]⟩

/-- A well-formed graph with one diamond (node 2 uses node 0 twice,
node 4 uses node 0 again) and a chain of depth 3, plus two distinct
nodes (1 and 2) holding the same value. -/
def wGraphG : GState :=
  ⟨[⟨1, 0, Op.leaf⟩, ⟨2, 0, Op.leaf⟩, ⟨2, 0, Op.add 0 0⟩,
    ⟨4, 0, Op.mul 2 1⟩, ⟨5, 0, Op.add 3 0⟩]⟩

/-! ### The claims -/

/-- C1: every binary operation builds a node carrying the forward
value of the operation on the operands' values and records the two
operands, and its backward rule adds exactly the table contributions
(`g` resp. `g` for add, `g` resp. `-g` for subtract, `g * other.value`
resp. `g * self.value` for multiply, `g / other.value` resp.
`g * (-self.value / other.value²)` for divide, with `other.value ≠ 0`
in the divide case) to the operands' gradients and touches no other
gradient; in particular for leaves `a = 2`, `b = 3`, after
`(a*b).backward()`, `a.gradient == 3` and `b.gradient == 2`. -/
theorem C1_binary_rules :
    (∀ g a b,
      dataOf (addS g a b).1 (addS g a b).2 = dataOf g a + dataOf g b ∧
      opOf (addS g a b).1 (addS g a b).2 = Op.add a b ∧
      dataOf (subS g a b).1 (subS g a b).2 = dataOf g a - dataOf g b ∧
      opOf (subS g a b).1 (subS g a b).2 = Op.sub a b ∧
      dataOf (mulS g a b).1 (mulS g a b).2 = dataOf g a * dataOf g b ∧
      opOf (mulS g a b).1 (mulS g a b).2 = Op.mul a b) ∧
    (∀ g a b, dataOf g b ≠ 0 →
      (divS g a b).map (fun p => dataOf p.1 p.2) =
        Except.ok (dataOf g a / dataOf g b) ∧
      (divS g a b).map (fun p => opOf p.1 p.2) = Except.ok (Op.div a b)) ∧
    (∀ s i a b, opOf s i = Op.add a b → i ≠ a → a ≠ b →
      a < s.size → b < s.size →
      ∃ s1, stepB s i = Except.ok s1 ∧
        gradOf s1 a = gradOf s a + gradOf s i ∧
        gradOf s1 b = gradOf s b + gradOf s i ∧
        (∀ j, j ≠ a → j ≠ b → gradOf s1 j = gradOf s j) ∧
        (∀ j, dataOf s1 j = dataOf s j)) ∧
    (∀ s i a b, opOf s i = Op.sub a b → i ≠ a → a ≠ b →
      a < s.size → b < s.size →
      ∃ s1, stepB s i = Except.ok s1 ∧
        gradOf s1 a = gradOf s a + gradOf s i ∧
        gradOf s1 b = gradOf s b - gradOf s i ∧
        (∀ j, j ≠ a → j ≠ b → gradOf s1 j = gradOf s j) ∧
        (∀ j, dataOf s1 j = dataOf s j)) ∧
    (∀ s i a b, opOf s i = Op.mul a b → i ≠ a → a ≠ b →
      a < s.size → b < s.size →
      ∃ s1, stepB s i = Except.ok s1 ∧
        gradOf s1 a = gradOf s a + gradOf s i * dataOf s b ∧
        gradOf s1 b = gradOf s b + gradOf s i * dataOf s a ∧
        (∀ j, j ≠ a → j ≠ b → gradOf s1 j = gradOf s j) ∧
        (∀ j, dataOf s1 j = dataOf s j)) ∧
    (∀ s i a b, opOf s i = Op.div a b → i ≠ a → a ≠ b →
      a < s.size → b < s.size → dataOf s b ≠ 0 →
      ∃ s1, stepB s i = Except.ok s1 ∧
        gradOf s1 a = gradOf s a + gradOf s i / dataOf s b ∧
        gradOf s1 b = gradOf s b +
          gradOf s i * (-dataOf s a / (dataOf s b * dataOf s b)) ∧
        (∀ j, j ≠ a → j ≠ b → gradOf s1 j = gradOf s j) ∧
        (∀ j, dataOf s1 j = dataOf s j)) ∧
    (backward mulExample 2).map (fun s => (gradOf s 0, gradOf s 1)) =
      Except.ok (3, 2) := by
  refine ⟨?_, ?_, ?_, ?_, ?_, ?_, by with_unfolding_all rfl⟩
  · intro g a b
    exact ⟨dataOf_push_self _ _, opOf_push_self _ _, dataOf_push_self _ _,
      opOf_push_self _ _, dataOf_push_self _ _, opOf_push_self _ _⟩
  · intro g a b hz
    rw [divS, if_neg hz]
    exact ⟨by simp [Except.map, dataOf_push_self],
      by simp [Except.map, opOf_push_self]⟩
  · exact fun s i a b hop hia hab ha hb => stepB_add_spec s i a b hop hia hab ha hb
  · exact fun s i a b hop hia hab ha hb => stepB_sub_spec s i a b hop hia hab ha hb
  · exact fun s i a b hop hia hab ha hb => stepB_mul_spec s i a b hop hia hab ha hb
  · exact fun s i a b hop hia hab ha hb hz =>
      stepB_div_spec s i a b hop hia hab ha hb hz

/-- Witness for C1 at the concrete graph `mulExample` (`i = 2` is the
product node with operands 0 and 1). -/
theorem C1_binary_rules_witness :
    (∃ s1, stepB mulExample 2 = Except.ok s1 ∧
      gradOf s1 0 = gradOf mulExample 0 + gradOf mulExample 2 * dataOf mulExample 1 ∧
      gradOf s1 1 = gradOf mulExample 1 + gradOf mulExample 2 * dataOf mulExample 0 ∧
      (∀ j, j ≠ 0 → j ≠ 1 → gradOf s1 j = gradOf mulExample j) ∧
      (∀ j, dataOf s1 j = dataOf mulExample j)) ∧
    (divS mulExample 0 1).map (fun p => dataOf p.1 p.2) =
      Except.ok (dataOf mulExample 0 / dataOf mulExample 1) := by
  have h := C1_binary_rules
  have hz : dataOf mulExample 1 ≠ 0 := by
    have h3 : dataOf mulExample 1 = 3 := by with_unfolding_all rfl
    rw [h3]
    norm_num
  exact ⟨h.2.2.2.2.1 mulExample 2 0 1 rfl (by decide) (by decide)
      (by decide) (by decide),
    (h.2.1 mulExample 0 1 hz).1⟩

/-- C2 counterexample: on the depth-2 chain `chainG`, a single
`backward` gives the leaf (node 0) gradient 1, but a second `backward`
without zeroing gives it gradient 3, not the claimed double 2: the
stale gradient of the intermediate node compounds. -/
theorem C2_counterexample :
    (backward chainG 4).map (fun s => gradOf s 0) = Except.ok 1 ∧
    ((backward chainG 4).bind (fun s => backward s 4)).map (fun s => gradOf s 0) =
      Except.ok 3 ∧
    (3 : ℚ) ≠ 2 * 1 := by
  refine ⟨by with_unfolding_all rfl, by with_unfolding_all rfl, by norm_num⟩

/-- C2 amended: gradients are never auto-reset, so a second
`backward()` re-accumulates into the stale gradients left by the first
pass; exact doubling is the shallow special case: for every
well-formed graph whose terminal's operands are all leaf nodes with
zero initial gradients, a second `backward()` leaves each operand
leaf's gradient at exactly double its value after a single
`backward()` (all five operations and shared operands included, since
every rule invoked besides the terminal's own is a leaf no-op and the
terminal's rule adds the same contributions from the re-assigned seed
1); in deeper graphs the stale gradients of intermediate nodes
compound and a leaf's gradient can exceed double, as the
counterexample shows. -/
theorem C2_amended (g : GState) (t : Nat) (hwf : WF g) (ht : t < g.size)
    (hleaf : ∀ u ∈ prevOf g t, opOf g u = Op.leaf)
    (hzero : ∀ u ∈ prevOf g t, gradOf g u = 0)
    (s1 s2 : GState)
    (h1 : backward g t = Except.ok s1) (h2 : backward s1 t = Except.ok s2) :
    ∀ u ∈ prevOf g t, gradOf s2 u = 2 * gradOf s1 u := by
  obtain ⟨hd1, ho1, hn1⟩ := backward_preserves g t s1 h1
  have hprev1 : ∀ j, prevOf s1 j = prevOf g j := by
    intro j
    simp only [prevOf, ho1 j]
  have hwf1 : WF s1 := by
    intro i hi c hc
    rw [hprev1] at hc
    exact hwf i (by rw [hn1] at hi; exact hi) c hc
  have ht1 : t < s1.size := by rw [hn1]; exact ht
  have hleaf1 : ∀ u ∈ prevOf s1 t, opOf s1 u = Op.leaf := by
    intro u hu
    rw [hprev1] at hu
    rw [ho1]
    exact hleaf u hu
  have hs1 : stepB (updGrad g t (fun _ => 1)) t = Except.ok s1 :=
    backward_shallow g t hwf hleaf s1 h1
  have hs2 : stepB (updGrad s1 t (fun _ => 1)) t = Except.ok s2 :=
    backward_shallow s1 t hwf1 hleaf1 s2 h2
  have hgAt : gradOf (updGrad g t (fun _ => 1)) t = 1 :=
    gradOf_updGrad_self _ _ _ ht
  have hgBt : gradOf (updGrad s1 t (fun _ => 1)) t = 1 :=
    gradOf_updGrad_self _ _ _ ht1
  have hopA : opOf (updGrad g t (fun _ => 1)) t = opOf g t := opOf_updGrad _ _ _ _
  have hopB : opOf (updGrad s1 t (fun _ => 1)) t = opOf g t := by
    rw [opOf_updGrad, ho1]
  have hdA : ∀ j, dataOf (updGrad g t (fun _ => 1)) j = dataOf g j :=
    fun j => dataOf_updGrad _ _ _ _
  have hdB : ∀ j, dataOf (updGrad s1 t (fun _ => 1)) j = dataOf g j := by
    intro j
    rw [dataOf_updGrad, hd1]
  have hsA : (updGrad g t (fun _ => 1)).size = g.size := size_updGrad _ _ _
  have hsB : (updGrad s1 t (fun _ => 1)).size = g.size := by
    rw [size_updGrad, hn1]
  have hgAu : ∀ u ∈ prevOf g t, gradOf (updGrad g t (fun _ => 1)) u = 0 := by
    intro u hu
    rw [gradOf_updGrad_ne _ _ _ _ (hwf t ht u hu).ne]
    exact hzero u hu
  have hgBu : ∀ u ∈ prevOf g t,
      gradOf (updGrad s1 t (fun _ => 1)) u = gradOf s1 u :=
    fun u hu => gradOf_updGrad_ne _ _ _ _ (hwf t ht u hu).ne
  intro u hu
  cases hopt : opOf g t
  case leaf =>
      rw [prevOf, hopt] at hu
      exact absurd hu (List.not_mem_nil u)
  case add a b =>
      have hmema : a ∈ prevOf g t := by
        rw [prevOf, hopt]; exact List.mem_cons_self _ _
      have hmemb : b ∈ prevOf g t := by
        rw [prevOf, hopt]
        exact List.mem_cons_of_mem _ (List.mem_cons_self _ _)
      have hat := hwf t ht a hmema
      have hbt := hwf t ht b hmemb
      have e1 := stepB_add_grad _ t a b (hopA.trans hopt) hat.ne'
        (by rw [hsA]; omega) (by rw [hsA]; omega) s1 hs1 u
      have e2 := stepB_add_grad _ t a b (hopB.trans hopt) hat.ne'
        (by rw [hsB]; omega) (by rw [hsB]; omega) s2 hs2 u
      rw [hgAt, hgAu u hu] at e1
      rw [hgBt, hgBu u hu] at e2
      rw [e2, e1]
      ring
  case sub a b =>
      have hmema : a ∈ prevOf g t := by
        rw [prevOf, hopt]; exact List.mem_cons_self _ _
      have hmemb : b ∈ prevOf g t := by
        rw [prevOf, hopt]
        exact List.mem_cons_of_mem _ (List.mem_cons_self _ _)
      have hat := hwf t ht a hmema
      have hbt := hwf t ht b hmemb
      have e1 := stepB_sub_grad _ t a b (hopA.trans hopt) hat.ne'
        (by rw [hsA]; omega) (by rw [hsA]; omega) s1 hs1 u
      have e2 := stepB_sub_grad _ t a b (hopB.trans hopt) hat.ne'
        (by rw [hsB]; omega) (by rw [hsB]; omega) s2 hs2 u
      rw [hgAt, hgAu u hu] at e1
      rw [hgBt, hgBu u hu] at e2
      rw [e2, e1]
      ring
  case mul a b =>
      have hmema : a ∈ prevOf g t := by
        rw [prevOf, hopt]; exact List.mem_cons_self _ _
      have hmemb : b ∈ prevOf g t := by
        rw [prevOf, hopt]
        exact List.mem_cons_of_mem _ (List.mem_cons_self _ _)
      have hat := hwf t ht a hmema
      have hbt := hwf t ht b hmemb
      have e1 := stepB_mul_grad _ t a b (hopA.trans hopt) hat.ne'
        (by rw [hsA]; omega) (by rw [hsA]; omega) s1 hs1 u
      have e2 := stepB_mul_grad _ t a b (hopB.trans hopt) hat.ne'
        (by rw [hsB]; omega) (by rw [hsB]; omega) s2 hs2 u
      rw [hgAt, hgAu u hu, hdA a, hdA b] at e1
      rw [hgBt, hgBu u hu, hdB a, hdB b] at e2
      rw [e2, e1]
      ring
  case div a b =>
      have hmema : a ∈ prevOf g t := by
        rw [prevOf, hopt]; exact List.mem_cons_self _ _
      have hmemb : b ∈ prevOf g t := by
        rw [prevOf, hopt]
        exact List.mem_cons_of_mem _ (List.mem_cons_self _ _)
      have hat := hwf t ht a hmema
      have hbt := hwf t ht b hmemb
      have e1 := stepB_div_grad _ t a b (hopA.trans hopt) hat.ne'
        (by rw [hsA]; omega) (by rw [hsA]; omega) s1 hs1 u
      have e2 := stepB_div_grad _ t a b (hopB.trans hopt) hat.ne'
        (by rw [hsB]; omega) (by rw [hsB]; omega) s2 hs2 u
      rw [hgAt, hgAu u hu, hdA a, hdA b] at e1
      rw [hgBt, hgBu u hu, hdB a, hdB b] at e2
      rw [e2, e1]
      ring
  case relu a =>
      have hmema : a ∈ prevOf g t := by
        rw [prevOf, hopt]; exact List.mem_cons_self _ _
      have hat := hwf t ht a hmema
      have e1 := stepB_relu_grad _ t a (hopA.trans hopt)
        (by rw [hsA]; omega) s1 hs1 u
      have e2 := stepB_relu_grad _ t a (hopB.trans hopt)
        (by rw [hsB]; omega) s2 hs2 u
      rw [hgAt, hgAu u hu, hdA t] at e1
      rw [hgBt, hgBu u hu, hdB t] at e2
      rw [e2, e1]
      ring

/-- Witness for the amended C2 on `mulExample` (terminal 2, operand
leaves 0 and 1 with zero initial gradients): gradients go (3, 2) after
one pass and (6, 4) after two. -/
theorem C2_amended_witness :
    gradOf mulExampleRes2 0 = 2 * gradOf mulExampleRes 0 ∧
    gradOf mulExampleRes2 1 = 2 * gradOf mulExampleRes 1 := by
  have hzero : ∀ u ∈ prevOf mulExample 2, gradOf mulExample u = 0 := by
    intro u hu
    have h0 : prevOf mulExample 2 = [0, 1] := rfl
    rw [h0] at hu
    rcases List.mem_cons.mp hu with h | h
    · rw [h]
      rfl
    · rw [List.mem_singleton.mp h]
      rfl
  have h := C2_amended mulExample 2 (by decide) (by decide) (by decide) hzero
    mulExampleRes mulExampleRes2 (by with_unfolding_all rfl)
    (by with_unfolding_all rfl)
  exact ⟨h 0 (by decide), h 1 (by decide)⟩

/-- C4: gradient contributions accumulate rather than overwrite: with
`a = Scalar(3.0)` and `b = a + a` (node 0 appears as both operands of
node 1), `b.backward()` leaves `a.gradient == 2` — both unit
contributions sum. -/
theorem C4_shared_operand_accumulation :
    dataOf diamondG 0 = 3 ∧ opOf diamondG 1 = Op.add 0 0 ∧
    (backward diamondG 1).map (fun s => gradOf s 0) = Except.ok 2 :=
  ⟨by with_unfolding_all rfl, rfl, by with_unfolding_all rfl⟩

/-- C3: during `backward(t)` the traversal output `dfs g t` is
duplicate-free and contains exactly the nodes reachable from `t`
through the operand relation — membership is keyed by node identity
(the arena index), so two distinct reachable nodes with equal values
each appear — and `backward` invokes the local rules along
`(dfs g t).reverse`, in which every operand occurs strictly after all
of its consumers and the terminal occurs first. -/
theorem C3_topo_order (g : GState) (t : Nat) (hwf : WF g) :
    (dfs g t).Nodup ∧
    (∀ x, x ∈ dfs g t ↔ Reach g t x) ∧
    (∀ i j, i ≠ j → Reach g t i → Reach g t j →
      dataOf g i = dataOf g j → i ∈ dfs g t ∧ j ∈ dfs g t) ∧
    (∀ v ∈ dfs g t, ∀ u ∈ prevOf g v,
      u ∈ dfs g t ∧ pos (dfs g t) u < pos (dfs g t) v ∧
      pos (dfs g t).reverse v < pos (dfs g t).reverse u) ∧
    (dfs g t).reverse.head? = some t := by
  obtain ⟨hnd, hmem, hord⟩ := dfs_main g hwf t
  refine ⟨hnd, hmem, ?_, ?_, ?_⟩
  · intro i j _ hi hj _
    exact ⟨(hmem i).mpr hi, (hmem j).mpr hj⟩
  · intro v hv u hu
    obtain ⟨humem, hlt⟩ := hord v hv u hu
    refine ⟨humem, hlt, ?_⟩
    rw [pos_reverse _ _ hnd humem, pos_reverse _ _ hnd hv]
    have h1 := pos_lt_length _ _ humem
    have h2 := pos_lt_length _ _ hv
    omega
  · obtain ⟨X, hX⟩ := dfs_concat g t
    rw [hX]
    simp

/-- Witness for C3 on a concrete graph with a diamond and a chain of
depth 3 (`wGraphG`, terminal 4). -/
theorem C3_topo_order_witness :
    (dfs wGraphG 4).Nodup ∧
    (∀ x, x ∈ dfs wGraphG 4 ↔ Reach wGraphG 4 x) ∧
    (∀ i j, i ≠ j → Reach wGraphG 4 i → Reach wGraphG 4 j →
      dataOf wGraphG i = dataOf wGraphG j →
      i ∈ dfs wGraphG 4 ∧ j ∈ dfs wGraphG 4) ∧
    (∀ v ∈ dfs wGraphG 4, ∀ u ∈ prevOf wGraphG v,
      u ∈ dfs wGraphG 4 ∧ pos (dfs wGraphG 4) u < pos (dfs wGraphG 4) v ∧
      pos (dfs wGraphG 4).reverse v < pos (dfs wGraphG 4).reverse u) ∧
    (dfs wGraphG 4).reverse.head? = some 4 :=
  C3_topo_order wGraphG 4 (by decide)

/-- C6: `relu` builds a node whose value is `max(0, x.value)` with the
single operand `x`, and its backward rule adds `g` to `x`'s gradient
exactly when the output value is strictly positive and contributes
nothing otherwise (so the sub-gradient at input 0 is 0); concretely,
for `x = -5` the output value is 0 and `x.gradient` is 0 after
backward, for `x = 5` the output value is 5 and `x.gradient` is 1, and
for `x = 0` the output value is 0 and `x.gradient` is 0. -/
theorem C6_relu_rules :
    (∀ g a,
      dataOf (reluS g a).1 (reluS g a).2 = max 0 (dataOf g a) ∧
      opOf (reluS g a).1 (reluS g a).2 = Op.relu a) ∧
    (∀ s i a, opOf s i = Op.relu a → a < s.size →
      ∃ s1, stepB s i = Except.ok s1 ∧
        (0 < dataOf s i → gradOf s1 a = gradOf s a + gradOf s i) ∧
        (dataOf s i ≤ 0 → gradOf s1 a = gradOf s a) ∧
        (∀ j, j ≠ a → gradOf s1 j = gradOf s j) ∧
        (∀ j, dataOf s1 j = dataOf s j)) ∧
    (dataOf reluNegG 1 = 0 ∧
      (backward reluNegG 1).map (fun s => gradOf s 0) = Except.ok 0) ∧
    (dataOf reluPosG 1 = 5 ∧
      (backward reluPosG 1).map (fun s => gradOf s 0) = Except.ok 1) ∧
    (dataOf reluZeroG 1 = 0 ∧
      (backward reluZeroG 1).map (fun s => gradOf s 0) = Except.ok 0) := by
  refine ⟨?_, ?_, ⟨by with_unfolding_all rfl, by with_unfolding_all rfl⟩,
    ⟨by with_unfolding_all rfl, by with_unfolding_all rfl⟩,
    ⟨by with_unfolding_all rfl, by with_unfolding_all rfl⟩⟩
  · intro g a
    refine ⟨?_, opOf_push_self _ _⟩
    show dataOf (g.push _) g.size = _
    rw [dataOf_push_self]
    rcases lt_or_le (dataOf g a) 0 with h | h
    · rw [if_pos h, max_eq_left h.le]
    · rw [if_neg (not_lt.mpr h), max_eq_right h]
  · intro s i a hop ha
    obtain ⟨s1, hs1, hga, hne, hdata⟩ := stepB_relu_spec s i a hop ha
    refine ⟨s1, hs1, ?_, ?_, hne, hdata⟩
    · intro hpos
      rw [hga, if_pos hpos, one_mul]
    · intro hle
      rw [hga, if_neg (not_lt.mpr hle), zero_mul, add_zero]

/-- Witness for C6 at the concrete graph `reluPosG` (node 1 is the
relu of node 0). -/
theorem C6_relu_rules_witness :
    ∃ s1, stepB reluPosG 1 = Except.ok s1 ∧
      (0 < dataOf reluPosG 1 →
        gradOf s1 0 = gradOf reluPosG 0 + gradOf reluPosG 1) ∧
      (dataOf reluPosG 1 ≤ 0 → gradOf s1 0 = gradOf reluPosG 0) ∧
      (∀ j, j ≠ 0 → gradOf s1 j = gradOf reluPosG j) ∧
      (∀ j, dataOf s1 j = dataOf reluPosG j) :=
  C6_relu_rules.2.1 reluPosG 1 0 rfl (by decide)

/-- C7: dividing by a node (or a lifted raw scalar) whose value is 0
raises the division-by-zero condition instead of producing any node,
and the backward rule of a division node whose divisor has value 0
raises the same condition: the behaviour is uniform between the
forward divide and its backward rule. -/
theorem C7_div_by_zero :
    (∀ g a b, dataOf g b = 0 → divS g a b = Except.error Err.divisionByZero) ∧
    (∀ g x, divPy g x (PyArg.pfloat 0) = Except.error Err.divisionByZero) ∧
    (∀ g x b, dataOf g b = 0 →
      divPy g x (PyArg.scalar b) = Except.error Err.divisionByZero) ∧
    (∀ s i a b, opOf s i = Op.div a b → dataOf s b = 0 →
      stepB s i = Except.error Err.divisionByZero) := by
  refine ⟨?_, ?_, ?_, ?_⟩
  · intro g a b hz
    rw [divS, if_pos hz]
  · intro g x
    have hz : dataOf (mkLeaf g 0).1 (mkLeaf g 0).2 = 0 := dataOf_push_self _ _
    show divS (mkLeaf g 0).1 x (mkLeaf g 0).2 = _
    rw [divS, if_pos hz]
  · intro g x b hz
    show divS g x b = _
    rw [divS, if_pos hz]
  · intro s i a b hop hz
    rw [stepB_div_eq s i a b hop, if_pos hz]

/-- Witness for C7: the zero leaf as divisor in the forward divide,
and a division node whose divisor holds 0 in the backward rule. -/
theorem C7_div_by_zero_witness :
    divS zeroLeafG 0 0 = Except.error Err.divisionByZero ∧
    stepB divNodeG 2 = Except.error Err.divisionByZero := by
  have h := C7_div_by_zero
  exact ⟨h.1 zeroLeafG 0 0 (by with_unfolding_all rfl),
    h.2.2.2 divNodeG 2 0 1 rfl (by with_unfolding_all rfl)⟩

/-- C10: immediately after a successful `t.backward()`, `t`'s gradient
is exactly 1 regardless of the gradient `t` held before the call: the
seed is an assignment, and no node reachable from the terminal
contributes back into the terminal's own gradient. -/
theorem C10_terminal_gradient_seed (g : GState) (t : Nat) (s : GState)
    (hwf : WF g) (ht : t < g.size) (h : backward g t = Except.ok s) :
    gradOf s t = 1 :=
  backward_grad_terminal g t s hwf ht h

/-- Witness for C10 on a leaf terminal carrying a stale gradient 5:
after `backward` the gradient is exactly 1. -/
theorem C10_terminal_gradient_seed_witness :
    gradOf seedG 0 = 5 ∧ backward seedG 0 = Except.ok seedGres ∧
    gradOf seedGres 0 = 1 := by
  refine ⟨by with_unfolding_all rfl, by with_unfolding_all rfl, ?_⟩
  exact C10_terminal_gradient_seed seedG 0 seedGres (by decide) (by decide)
    (by with_unfolding_all rfl)

/-- C5 counterexample: for the zero-valued node `x` (node 0 of
`zeroLeafG`), the reflected divide `1.0 / x` raises
`ZeroDivisionError` instead of producing a node whose value is
`1 / x.value`, so the claim fails as stated for every node `x`. -/
theorem C5_counterexample :
    dataOf zeroLeafG 0 = 0 ∧
    rdivPy zeroLeafG 0 (PyArg.pfloat 1) = Except.error Err.divisionByZero :=
  ⟨by with_unfolding_all rfl, by with_unfolding_all rfl⟩

/-- C5 (amended): the reflected subtract lifts the raw scalar `r` to a
fresh leaf and evaluates `leaf - x`: the result node's value is
`r - x.value`, its recorded operands are the lifted leaf first and `x`
second, and a subtraction node's backward rule adds `g` to its first
operand (the lifted leaf) and `-g` to its second (`x`); the reflected
divide likewise lifts `r` and evaluates `leaf / x`, producing a node
of value `r / x.value` whenever `x.value ≠ 0` (and raising
division-by-zero otherwise). -/
theorem C5_reflected_ops (g : GState) (x : Nat) (r : ℚ) (hx : x < g.size) :
    (rsubPy g x (PyArg.pfloat r) =
        Except.ok (subS (mkLeaf g r).1 (mkLeaf g r).2 x) ∧
      dataOf (mkLeaf g r).1 (mkLeaf g r).2 = r ∧
      opOf (mkLeaf g r).1 (mkLeaf g r).2 = Op.leaf ∧
      (rsubPy g x (PyArg.pfloat r)).map (fun p => dataOf p.1 p.2) =
        Except.ok (r - dataOf g x) ∧
      (rsubPy g x (PyArg.pfloat r)).map (fun p => opOf p.1 p.2) =
        Except.ok (Op.sub (mkLeaf g r).2 x)) ∧
    (∀ s i l y, opOf s i = Op.sub l y → i ≠ l → l ≠ y →
      l < s.size → y < s.size →
      ∃ s1, stepB s i = Except.ok s1 ∧
        gradOf s1 l = gradOf s l + gradOf s i ∧
        gradOf s1 y = gradOf s y - gradOf s i) ∧
    (dataOf g x ≠ 0 →
      (rdivPy g x (PyArg.pfloat r)).map (fun p => dataOf p.1 p.2) =
        Except.ok (r / dataOf g x)) := by
  have h1 : dataOf (mkLeaf g r).1 (mkLeaf g r).2 = r := dataOf_push_self _ _
  have h2 : dataOf (mkLeaf g r).1 x = dataOf g x := dataOf_push_lt _ _ _ hx
  refine ⟨⟨rfl, h1, opOf_push_self _ _, ?_, ?_⟩, ?_, ?_⟩
  · have h3 : dataOf (subS (mkLeaf g r).1 (mkLeaf g r).2 x).1
        (subS (mkLeaf g r).1 (mkLeaf g r).2 x).2
        = dataOf (mkLeaf g r).1 (mkLeaf g r).2 - dataOf (mkLeaf g r).1 x :=
      dataOf_push_self _ _
    show Except.ok (dataOf (subS (mkLeaf g r).1 (mkLeaf g r).2 x).1
        (subS (mkLeaf g r).1 (mkLeaf g r).2 x).2) = _
    rw [h3, h1, h2]
  · have h3 : opOf (subS (mkLeaf g r).1 (mkLeaf g r).2 x).1
        (subS (mkLeaf g r).1 (mkLeaf g r).2 x).2
        = Op.sub (mkLeaf g r).2 x := opOf_push_self _ _
    show Except.ok (opOf (subS (mkLeaf g r).1 (mkLeaf g r).2 x).1
        (subS (mkLeaf g r).1 (mkLeaf g r).2 x).2) = _
    rw [h3]
  · intro s i l y hop hil hly hl hy
    obtain ⟨s1, hs1, hga, hgb, _, _⟩ := stepB_sub_spec s i l y hop hil hly hl hy
    exact ⟨s1, hs1, hga, hgb⟩
  · intro hz
    have hz1 : dataOf (mkLeaf g r).1 x ≠ 0 := by rw [h2]; exact hz
    show (divS (mkLeaf g r).1 (mkLeaf g r).2 x).map (fun p => dataOf p.1 p.2) = _
    rw [divS, if_neg hz1]
    show Except.ok (dataOf ((mkLeaf g r).1.push _) (mkLeaf g r).1.size) = _
    rw [dataOf_push_self, h1, h2]

/-- Witness for C5 at the one-node graph `oneLeafG` (`x` is node 0
with value 1, `r = 7`). -/
theorem C5_reflected_ops_witness :
    (rsubPy oneLeafG 0 (PyArg.pfloat 7)).map (fun p => dataOf p.1 p.2) =
      Except.ok (7 - dataOf oneLeafG 0) ∧
    (rdivPy oneLeafG 0 (PyArg.pfloat 7)).map (fun p => dataOf p.1 p.2) =
      Except.ok (7 / dataOf oneLeafG 0) := by
  have h := C5_reflected_ops oneLeafG 0 7 (by decide)
  have hz : dataOf oneLeafG 0 ≠ 0 := by
    have h1 : dataOf oneLeafG 0 = 1 := by with_unfolding_all rfl
    rw [h1]
    norm_num
  exact ⟨h.1.2.2.2.1, h.2.2 hz⟩

/-- C8 counterexample: a raw Python `int` operand is a numeric scalar,
but it is not lifted (`isinstance(other, float)` is false for an int)
and there is no boundary type check: the operator fails with
`AttributeError` when it reads `_other.data`. -/
theorem C8_counterexample :
    addPy oneLeafG 0 (PyArg.pint 3) = Except.error Err.attributeError := rfl

/-- C8 (amended): only a raw `float` operand is implicitly lifted to a
fresh leaf node at the operator entry point; a `Scalar` operand is
used directly; any other operand — including a raw `int`, which is
numeric — is neither lifted nor rejected by a type check, and the
operation fails with an `AttributeError` raised when the operand's
`data` attribute is read inside the operator body. -/
theorem C8_amended_lifting :
    (∀ g x q, addPy g x (PyArg.pfloat q) =
        Except.ok (addS (mkLeaf g q).1 x (mkLeaf g q).2) ∧
      dataOf (mkLeaf g q).1 (mkLeaf g q).2 = q ∧
      opOf (mkLeaf g q).1 (mkLeaf g q).2 = Op.leaf ∧
      (x < g.size →
        (addPy g x (PyArg.pfloat q)).map (fun p => dataOf p.1 p.2) =
          Except.ok (dataOf g x + q))) ∧
    (∀ g x j, addPy g x (PyArg.scalar j) = Except.ok (addS g x j)) ∧
    (∀ g x n, addPy g x (PyArg.pint n) = Except.error Err.attributeError ∧
      subPy g x (PyArg.pint n) = Except.error Err.attributeError ∧
      mulPy g x (PyArg.pint n) = Except.error Err.attributeError ∧
      divPy g x (PyArg.pint n) = Except.error Err.attributeError) ∧
    (∀ g x, addPy g x PyArg.pstr = Except.error Err.attributeError ∧
      subPy g x PyArg.pstr = Except.error Err.attributeError ∧
      mulPy g x PyArg.pstr = Except.error Err.attributeError ∧
      divPy g x PyArg.pstr = Except.error Err.attributeError) := by
  refine ⟨?_, fun g x j => rfl, fun g x n => ⟨rfl, rfl, rfl, rfl⟩,
    fun g x => ⟨rfl, rfl, rfl, rfl⟩⟩
  intro g x q
  refine ⟨rfl, dataOf_push_self _ _, opOf_push_self _ _, ?_⟩
  intro hx
  have h1 : dataOf (addS (mkLeaf g q).1 x (mkLeaf g q).2).1
      (addS (mkLeaf g q).1 x (mkLeaf g q).2).2
      = dataOf (mkLeaf g q).1 x + dataOf (mkLeaf g q).1 (mkLeaf g q).2 :=
    dataOf_push_self _ _
  have h2 : dataOf (mkLeaf g q).1 x = dataOf g x := dataOf_push_lt _ _ _ hx
  have h3 : dataOf (mkLeaf g q).1 (mkLeaf g q).2 = q := dataOf_push_self _ _
  show Except.ok (dataOf (addS (mkLeaf g q).1 x (mkLeaf g q).2).1
      (addS (mkLeaf g q).1 x (mkLeaf g q).2).2) = _
  rw [h1, h2, h3]

/-- Witness for C8 at the one-node graph: `Scalar(1.0) + 2.0` lifts
the float and yields value 3. -/
theorem C8_amended_lifting_witness :
    (addPy oneLeafG 0 (PyArg.pfloat 2)).map (fun p => dataOf p.1 p.2) =
      Except.ok (dataOf oneLeafG 0 + 2) :=
  (C8_amended_lifting.1 oneLeafG 0 2).2.2.2 (by decide)

/-- C9: `value` is never mutated after a node's construction: every
constructor (leaf, add, subtract, multiply, divide, relu, and the
reflected subtract/divide forms) leaves the `data` of every
already-existing node unchanged, and a successful `backward` changes
no node's `data` (nor its operation record nor the number of nodes):
it writes only gradients. -/
theorem C9_value_immutability :
    (∀ g q i, i < g.size → dataOf (mkLeaf g q).1 i = dataOf g i) ∧
    (∀ g a b i, i < g.size →
      dataOf (addS g a b).1 i = dataOf g i ∧
      dataOf (subS g a b).1 i = dataOf g i ∧
      dataOf (mulS g a b).1 i = dataOf g i ∧
      dataOf (reluS g a).1 i = dataOf g i) ∧
    (∀ g a b g1 n, divS g a b = Except.ok (g1, n) →
      ∀ i, i < g.size → dataOf g1 i = dataOf g i) ∧
    (∀ g x arg g1 n, rsubPy g x arg = Except.ok (g1, n) →
      ∀ i, i < g.size → dataOf g1 i = dataOf g i) ∧
    (∀ g x arg g1 n, rdivPy g x arg = Except.ok (g1, n) →
      ∀ i, i < g.size → dataOf g1 i = dataOf g i) ∧
    (∀ g t s, backward g t = Except.ok s →
      (∀ j, dataOf s j = dataOf g j) ∧ (∀ j, opOf s j = opOf g j) ∧
        s.size = g.size) := by
  refine ⟨fun g q i hi => dataOf_push_lt _ _ _ hi,
    fun g a b i hi => ⟨dataOf_push_lt _ _ _ hi, dataOf_push_lt _ _ _ hi,
      dataOf_push_lt _ _ _ hi, dataOf_push_lt _ _ _ hi⟩,
    ?_, ?_, ?_, fun g t s h => backward_preserves g t s h⟩
  · intro g a b g1 n h i hi
    by_cases hz : dataOf g b = 0
    · rw [divS, if_pos hz] at h
      exact absurd h (by simp)
    · rw [divS, if_neg hz] at h
      injection h with h
      have h3 : (g.push ⟨dataOf g a / dataOf g b, 0, Op.div a b⟩) = g1 :=
        congrArg Prod.fst h
      rw [← h3]
      exact dataOf_push_lt _ _ _ hi
  · intro g x arg g1 n h i hi
    cases arg with
    | scalar j =>
        have h0 : Except.ok (subS g j x) = Except.ok (g1, n) := h
        injection h0 with h0
        have h3 : (subS g j x).1 = g1 := congrArg Prod.fst h0
        rw [← h3]
        exact dataOf_push_lt _ _ _ hi
    | pfloat q =>
        have h0 : Except.ok (subS (mkLeaf g q).1 (mkLeaf g q).2 x)
            = Except.ok (g1, n) := h
        injection h0 with h0
        have h3 : (subS (mkLeaf g q).1 (mkLeaf g q).2 x).1 = g1 :=
          congrArg Prod.fst h0
        rw [← h3]
        have h4 : dataOf (mkLeaf g q).1 i = dataOf g i := dataOf_push_lt _ _ _ hi
        have h5 : dataOf (subS (mkLeaf g q).1 (mkLeaf g q).2 x).1 i
            = dataOf (mkLeaf g q).1 i := by
          refine dataOf_push_lt _ _ _ ?_
          show i < (g.push ⟨q, 0, Op.leaf⟩).size
          rw [size_push]
          omega
        rw [h5, h4]
    | pint m =>
        have h0 : (Except.error Err.typeError : Except Err (GState × Nat))
            = Except.ok (g1, n) := h
        exact absurd h0 (by simp)
    | pstr =>
        have h0 : (Except.error Err.typeError : Except Err (GState × Nat))
            = Except.ok (g1, n) := h
        exact absurd h0 (by simp)
  · intro g x arg g1 n h i hi
    cases arg with
    | scalar j =>
        have h0 : divS g j x = Except.ok (g1, n) := h
        by_cases hz : dataOf g x = 0
        · rw [divS, if_pos hz] at h0
          exact absurd h0 (by simp)
        · rw [divS, if_neg hz] at h0
          injection h0 with h0
          have h3 : (g.push ⟨dataOf g j / dataOf g x, 0, Op.div j x⟩) = g1 :=
            congrArg Prod.fst h0
          rw [← h3]
          exact dataOf_push_lt _ _ _ hi
    | pfloat q =>
        have h0 : divS (mkLeaf g q).1 (mkLeaf g q).2 x = Except.ok (g1, n) := h
        by_cases hz : dataOf (mkLeaf g q).1 x = 0
        · rw [divS, if_pos hz] at h0
          exact absurd h0 (by simp)
        · rw [divS, if_neg hz] at h0
          injection h0 with h0
          have h3 : ((mkLeaf g q).1.push
              ⟨dataOf (mkLeaf g q).1 (mkLeaf g q).2 / dataOf (mkLeaf g q).1 x,
                0, Op.div (mkLeaf g q).2 x⟩) = g1 :=
            congrArg Prod.fst h0
          rw [← h3]
          have h4 : dataOf (mkLeaf g q).1 i = dataOf g i := dataOf_push_lt _ _ _ hi
          have h5 : dataOf ((mkLeaf g q).1.push
              ⟨dataOf (mkLeaf g q).1 (mkLeaf g q).2 / dataOf (mkLeaf g q).1 x,
                0, Op.div (mkLeaf g q).2 x⟩) i
              = dataOf (mkLeaf g q).1 i := by
            refine dataOf_push_lt _ _ _ ?_
            show i < (g.push ⟨q, 0, Op.leaf⟩).size
            rw [size_push]
            omega
          rw [h5, h4]
    | pint m =>
        have h0 : (Except.error Err.typeError : Except Err (GState × Nat))
            = Except.ok (g1, n) := h
        exact absurd h0 (by simp)
    | pstr =>
        have h0 : (Except.error Err.typeError : Except Err (GState × Nat))
            = Except.ok (g1, n) := h
        exact absurd h0 (by simp)

/-- Witness for C9 on `mulExample`: `backward` fills gradients but
leaves every `data` field intact, and an `add` on the same graph
leaves existing nodes' `data` intact. -/
theorem C9_value_immutability_witness :
    backward mulExample 2 = Except.ok mulExampleRes ∧
    (∀ j, dataOf mulExampleRes j = dataOf mulExample j) ∧
    dataOf (addS mulExample 0 1).1 0 = dataOf mulExample 0 := by
  have hok : backward mulExample 2 = Except.ok mulExampleRes := by
    with_unfolding_all rfl
  exact ⟨hok,
    (C9_value_immutability.2.2.2.2.2 mulExample 2 mulExampleRes hok).1,
    (C9_value_immutability.2.1 mulExample 0 1 0 (by decide)).1⟩

end Micrograd
